import Mathlib

/-!
Shallow embedding of the markup (YAML-like) parsing, serialization, pattern
matching and templating engine implemented in `src/ui/popup_tool.js`.

Modelling conventions:
- JS numbers are modelled as exact rationals (`Rat`); IEEE double rounding,
  overflow to `Infinity` and exponent-style printing of extreme magnitudes are
  not modelled.  Every number reachable from the parser comes from a decimal
  literal, where the rational model is exact for all inputs used below.
- JS objects are modelled as insertion-ordered association lists.  The JS
  reordering of integer-like keys and prototype-chain lookups are not
  modelled; no input used below has integer-like keys or prototype key names.
- JS strings are Lean strings (sequences of Unicode scalar values); string
  processing is done on `List Char`.  `toLowerCase` is modelled on the ASCII
  range plus the accented letters the program transliterates.
-/

namespace PopupTool

/-- The character `'` (written via its code point to keep sources plain). -/
def squote : Char := Char.ofNat 39

/-- The character `\`. -/
def bslash : Char := Char.ofNat 92

/-- The character `{`. -/
def lbrace : Char := Char.ofNat 123

/-- The character `}`. -/
def rbrace : Char := Char.ofNat 125

/-- The in-memory tree produced by the parser: the JS value universe that
`parseYAML` can build (null, booleans, numbers, strings, arrays, objects). -/
inductive Value where
  | vnull : Value
  | vbool : Bool → Value
  | vnum : Rat → Value
  | vstr : String → Value
  | varr : List Value → Value
  | vobj : List (String × Value) → Value
deriving Repr

mutual

/-- Structural equality test on trees (JS deep equality of the value trees). -/
def Value.beq : Value → Value → Bool
  | .vnull, .vnull => true
  | .vbool a, .vbool b => a = b
  | .vnum a, .vnum b => a = b
  | .vstr a, .vstr b => a = b
  | .varr xs, .varr ys => Value.beqList xs ys
  | .vobj fs, .vobj gs => Value.beqFields fs gs
  | _, _ => false

/-- Pointwise `Value.beq` on element lists. -/
def Value.beqList : List Value → List Value → Bool
  | [], [] => true
  | x :: xs, y :: ys => Value.beq x y && Value.beqList xs ys
  | _, _ => false

/-- Pointwise `Value.beq` on field lists. -/
def Value.beqFields : List (String × Value) → List (String × Value) → Bool
  | [], [] => true
  | (k, v) :: fs, (l, w) :: gs => k = l && Value.beq v w && Value.beqFields fs gs
  | _, _ => false

end

mutual

theorem Value.beq_iff_eq : ∀ v w : Value, Value.beq v w = true ↔ v = w
  | .vnull, .vnull => by simp [Value.beq]
  | .vbool _, .vbool _ => by simp [Value.beq]
  | .vnum _, .vnum _ => by simp [Value.beq]
  | .vstr _, .vstr _ => by simp [Value.beq]
  | .varr xs, .varr ys => by
      simp only [Value.beq, Value.varr.injEq]
      exact Value.beqList_iff_eq xs ys
  | .vobj fs, .vobj gs => by
      simp only [Value.beq, Value.vobj.injEq]
      exact Value.beqFields_iff_eq fs gs
  | .vnull, .vbool _ => by simp [Value.beq]
  | .vnull, .vnum _ => by simp [Value.beq]
  | .vnull, .vstr _ => by simp [Value.beq]
  | .vnull, .varr _ => by simp [Value.beq]
  | .vnull, .vobj _ => by simp [Value.beq]
  | .vbool _, .vnull => by simp [Value.beq]
  | .vbool _, .vnum _ => by simp [Value.beq]
  | .vbool _, .vstr _ => by simp [Value.beq]
  | .vbool _, .varr _ => by simp [Value.beq]
  | .vbool _, .vobj _ => by simp [Value.beq]
  | .vnum _, .vnull => by simp [Value.beq]
  | .vnum _, .vbool _ => by simp [Value.beq]
  | .vnum _, .vstr _ => by simp [Value.beq]
  | .vnum _, .varr _ => by simp [Value.beq]
  | .vnum _, .vobj _ => by simp [Value.beq]
  | .vstr _, .vnull => by simp [Value.beq]
  | .vstr _, .vbool _ => by simp [Value.beq]
  | .vstr _, .vnum _ => by simp [Value.beq]
  | .vstr _, .varr _ => by simp [Value.beq]
  | .vstr _, .vobj _ => by simp [Value.beq]
  | .varr _, .vnull => by simp [Value.beq]
  | .varr _, .vbool _ => by simp [Value.beq]
  | .varr _, .vnum _ => by simp [Value.beq]
  | .varr _, .vstr _ => by simp [Value.beq]
  | .varr _, .vobj _ => by simp [Value.beq]
  | .vobj _, .vnull => by simp [Value.beq]
  | .vobj _, .vbool _ => by simp [Value.beq]
  | .vobj _, .vnum _ => by simp [Value.beq]
  | .vobj _, .vstr _ => by simp [Value.beq]
  | .vobj _, .varr _ => by simp [Value.beq]

theorem Value.beqList_iff_eq : ∀ xs ys : List Value, Value.beqList xs ys = true ↔ xs = ys
  | [], [] => by simp [Value.beqList]
  | x :: xs, y :: ys => by
      simp only [Value.beqList, Bool.and_eq_true, List.cons.injEq]
      exact and_congr (Value.beq_iff_eq x y) (Value.beqList_iff_eq xs ys)
  | [], _ :: _ => by simp [Value.beqList]
  | _ :: _, [] => by simp [Value.beqList]

theorem Value.beqFields_iff_eq : ∀ fs gs : List (String × Value),
    Value.beqFields fs gs = true ↔ fs = gs
  | [], [] => by simp [Value.beqFields]
  | (k, v) :: fs, (l, w) :: gs => by
      simp only [Value.beqFields, Bool.and_eq_true, List.cons.injEq, Prod.mk.injEq,
        decide_eq_true_eq]
      rw [Value.beq_iff_eq v w, Value.beqFields_iff_eq fs gs]
  | [], _ :: _ => by simp [Value.beqFields]
  | _ :: _, [] => by simp [Value.beqFields]

end

instance : DecidableEq Value := fun v w =>
  decidable_of_iff (Value.beq v w = true) (Value.beq_iff_eq v w)

namespace Value

/-- `typeof v === "object" && v !== null` (JS arrays are objects too). -/
def isContainer : Value → Bool
  | varr _ => true
  | vobj _ => true
  | _ => false

end Value

/-- `isRecord` from the source: a non-null, non-array object. -/
def isRecord : Value → Bool
  | .vobj _ => true
  | _ => false

/-- JS property read `o[k]` on an object modelled as an association list. -/
def objGet (fields : List (String × Value)) (key : String) : Option Value :=
  match fields.find? (fun kv => kv.1 = key) with
  | some kv => some kv.2
  | none => none

/-- JS property write `o[k] = v`: updates the existing property in place
(keeping its position) or appends a new one. -/
def objSet (fields : List (String × Value)) (key : String) (v : Value) :
    List (String × Value) :=
  match fields with
  | [] => [(key, v)]
  | (k0, v0) :: rest =>
    if k0 = key then (k0, v) :: rest else (k0, v0) :: objSet rest key v

/-- Property read on a `Value` known to be an object; `none` otherwise
(matching JS `undefined` for property access on non-objects in this tree). -/
def Value.get : Value → String → Option Value
  | .vobj fields, key => objGet fields key
  | _, _ => none

/-- JS `\s` for the characters that can actually occur here (ASCII
whitespace; the rarely used Unicode space characters are not modelled). -/
def jsIsWhitespace (c : Char) : Bool :=
  c = ' ' || c = '\t' || c = '\n' || c = '\r' || c = Char.ofNat 11 || c = Char.ofNat 12

/-- `isWhitespaceOnly` from the source: `/^\s*$/.test(value)`. -/
def isWhitespaceOnly (l : List Char) : Bool :=
  l.all jsIsWhitespace

/-- JS `String.prototype.trimStart`. -/
def jsTrimStart (l : List Char) : List Char :=
  l.dropWhile jsIsWhitespace

/-- JS `String.prototype.trimEnd` (also the `/\s+$/` strip in `parseYAML`). -/
def jsTrimEnd (l : List Char) : List Char :=
  (l.reverse.dropWhile jsIsWhitespace).reverse

/-- JS `String.prototype.trim`. -/
def jsTrim (l : List Char) : List Char :=
  jsTrimEnd (jsTrimStart l)

/-- JS `text.replace(/pat/g, repl)` for a literal pattern: global,
leftmost-first, non-overlapping, no rescan of the replacement. -/
def replaceAll (pat repl : List Char) : List Char → List Char
  | [] => []
  | c :: rest =>
    if pat ≠ [] ∧ pat.isPrefixOf (c :: rest) then
      repl ++ replaceAll pat repl (List.drop (pat.length - 1) rest)
    else
      c :: replaceAll pat repl rest
termination_by l => l.length
decreasing_by
  · simp only [List.length_cons, List.length_drop]
    omega
  · simp only [List.length_cons]
    omega

/-- First index of character `c`, JS `indexOf`. -/
def indexOfChar (c : Char) : List Char → Option Nat
  | [] => none
  | d :: rest =>
    if d = c then some 0
    else match indexOfChar c rest with
      | some i => some (i + 1)
      | none => none

/-- JS `includes` for a single character. -/
def containsChar (c : Char) (l : List Char) : Bool :=
  l.contains c

/-- JS `includes` for a two-character pattern (used for `": "`). -/
def containsSub (pat : List Char) : List Char → Bool
  | [] => pat.isPrefixOf []
  | c :: rest => pat.isPrefixOf (c :: rest) || containsSub pat rest

/-- Leading-whitespace count: the length of the `/^(\s*)/u` match. -/
def leadingWhitespaceCount (l : List Char) : Nat :=
  (l.takeWhile jsIsWhitespace).length

/-- JS `toLowerCase`, modelled on ASCII plus the accented letters the
program's transliteration table covers (Ä, Ö, Ü, uppercase ẞ). -/
def jsToLower (c : Char) : Char :=
  if 'A' ≤ c ∧ c ≤ 'Z' then Char.ofNat (c.toNat + 32)
  else if c = 'Ä' then 'ä'
  else if c = 'Ö' then 'ö'
  else if c = 'Ü' then 'ü'
  else if c = Char.ofNat 7838 then 'ß'
  else c

/-- `stripComments` scan: `inS` and `inD` are the single and double quote
toggles and `bs` counts the consecutive backslashes immediately before the
current character (the source recomputes it by looking backwards at `"`). -/
def stripCommentsGo : Bool → Bool → Nat → List Char → List Char
  | _, _, _, [] => []
  | inS, inD, bs, c :: rest =>
    if c = squote ∧ inD = false then c :: stripCommentsGo (!inS) inD 0 rest
    else if c = '"' ∧ inS = false then
      c :: stripCommentsGo inS (if bs % 2 = 0 then !inD else inD) 0 rest
    else if c = '#' ∧ inS = false ∧ inD = false then []
    else c :: stripCommentsGo inS inD (if c = bslash then bs + 1 else 0) rest

/-- `stripComments` from the source: cut the line at the first `#` that is
outside any quoted span. -/
def stripComments (l : List Char) : List Char :=
  stripCommentsGo false false 0 l

/-- `splitTopLevel` scan; `cur` is the current fragment accumulated in
reverse, `depth` the bracket depth (floored at zero on closers). -/
def splitTopLevelGo (sep : Char) :
    Bool → Bool → Nat → Nat → List Char → List Char → List (List Char)
  | _, _, _, _, cur, [] =>
    let fin := jsTrim cur.reverse
    if fin = [] then [] else [fin]
  | inS, inD, bs, depth, cur, c :: rest =>
    if c = squote ∧ inD = false then
      splitTopLevelGo sep (!inS) inD 0 depth (c :: cur) rest
    else if c = '"' ∧ inS = false then
      splitTopLevelGo sep inS (if bs % 2 = 0 then !inD else inD) 0 depth (c :: cur) rest
    else
      let bs' := if c = bslash then bs + 1 else 0
      if inS ∨ inD then splitTopLevelGo sep inS inD bs' depth (c :: cur) rest
      else if c = lbrace ∨ c = '[' then
        splitTopLevelGo sep inS inD bs' (depth + 1) (c :: cur) rest
      else if c = rbrace ∨ c = ']' then
        splitTopLevelGo sep inS inD bs' (depth - 1) (c :: cur) rest
      else if c = sep ∧ depth = 0 then
        jsTrim cur.reverse :: splitTopLevelGo sep inS inD bs' depth [] rest
      else splitTopLevelGo sep inS inD bs' depth (c :: cur) rest

/-- `splitTopLevel` from the source: split on `sep` occurrences that are
outside quotes and at bracket depth zero; fragments are trimmed and a final
empty fragment is dropped. -/
def splitTopLevel (sep : Char) (text : List Char) : List (List Char) :=
  splitTopLevelGo sep false false 0 0 [] text

theorem length_jsTrim_le (l : List Char) : (jsTrim l).length ≤ l.length := by
  unfold jsTrim jsTrimEnd jsTrimStart
  have h1 : (l.dropWhile jsIsWhitespace).length ≤ l.length :=
    (List.dropWhile_suffix _).length_le
  have h2 : ((l.dropWhile jsIsWhitespace).reverse.dropWhile jsIsWhitespace).length ≤
      (l.dropWhile jsIsWhitespace).reverse.length :=
    (List.dropWhile_suffix _).length_le
  simp only [List.length_reverse] at h2 ⊢
  omega

theorem splitTopLevelGo_length_le (sep : Char) :
    ∀ (inS inD : Bool) (bs depth : Nat) (cur rest : List Char),
      ∀ p ∈ splitTopLevelGo sep inS inD bs depth cur rest,
        p.length ≤ cur.length + rest.length := by
  intro inS inD bs depth cur rest
  induction rest generalizing inS inD bs depth cur with
  | nil =>
    intro p hp
    simp only [splitTopLevelGo] at hp
    have hlen : (jsTrim cur.reverse).length ≤ cur.length := by
      have := length_jsTrim_le cur.reverse
      simpa using this
    split at hp
    · simp at hp
    · simp at hp; subst hp; simpa using hlen
  | cons c rest ih =>
    intro p hp
    simp only [splitTopLevelGo] at hp
    have hcur : ∀ (s1 s2 : Bool) (b d : Nat),
        p ∈ splitTopLevelGo sep s1 s2 b d (c :: cur) rest →
          p.length ≤ cur.length + (c :: rest).length := by
      intro s1 s2 b d h
      have := ih s1 s2 b d (c :: cur) p h
      simp only [List.length_cons] at this ⊢
      omega
    split at hp
    · exact hcur _ _ _ _ hp
    · split at hp
      · exact hcur _ _ _ _ hp
      · split at hp
        · exact hcur _ _ _ _ hp
        · split at hp
          · exact hcur _ _ _ _ hp
          · split at hp
            · exact hcur _ _ _ _ hp
            · split at hp
              · rcases List.mem_cons.mp hp with h | h
                · subst h
                  have hlen : (jsTrim cur.reverse).length ≤ cur.length := by
                    have := length_jsTrim_le cur.reverse
                    simpa using this
                  simp only [List.length_cons]
                  omega
                · have := ih _ _ _ _ [] p h
                  simp only [List.length_nil, List.length_cons] at this ⊢
                  omega
              · exact hcur _ _ _ _ hp

theorem splitTopLevel_length_le (sep : Char) (text : List Char) :
    ∀ p ∈ splitTopLevel sep text, p.length ≤ text.length := by
  intro p hp
  have := splitTopLevelGo_length_le sep false false 0 0 [] text p hp
  simpa using this

/-- JS `/^[-+]?[0-9]+$/` test. -/
def intRegexTest (l : List Char) : Bool :=
  match l with
  | [] => false
  | c :: rest =>
    let digits := if c = '-' ∨ c = '+' then rest else l
    !digits.isEmpty && digits.all Char.isDigit

/-- JS `/^[-+]?[0-9]*\.[0-9]+$/` test. -/
def floatRegexTest (l : List Char) : Bool :=
  let body := match l with
    | [] => ([] : List Char)
    | c :: rest => if c = '-' ∨ c = '+' then rest else l
  let ip := body.takeWhile Char.isDigit
  match body.drop ip.length with
  | c :: fracs => c == '.' && !fracs.isEmpty && fracs.all Char.isDigit
  | [] => false

/-- Decimal digit run to a natural number. -/
def digitsToNat (l : List Char) : Nat :=
  l.foldl (fun acc c => acc * 10 + (c.toNat - 48)) 0

/-- JS `Number.parseInt(s, 10)`: skip leading whitespace, read an optional
sign and the longest digit prefix.  (The no-digit `NaN` case is modelled as 0;
the parser only calls this on strings accepted by `intRegexTest`.) -/
def parseIntM (l : List Char) : Int :=
  let t := jsTrimStart l
  match t with
  | '-' :: rest => -(digitsToNat (rest.takeWhile Char.isDigit) : Int)
  | '+' :: rest => (digitsToNat (rest.takeWhile Char.isDigit) : Int)
  | _ => (digitsToNat (t.takeWhile Char.isDigit) : Int)

/-- JS `Number.parseFloat`: optional sign, digit prefix, optional fraction.
Modelled exactly over rationals as sign times `ip.frac`, written with the
integer constructors of `Rat` so that concrete runs reduce in the kernel (no
double rounding, no exponent suffix; the parser only calls this on strings
accepted by `floatRegexTest`). -/
def parseFloatM (l : List Char) : Rat :=
  let t := jsTrimStart l
  let sb : Bool × List Char := match t with
    | '-' :: rest => (true, rest)
    | '+' :: rest => (false, rest)
    | _ => (false, t)
  let ip := sb.2.takeWhile Char.isDigit
  let fracDigits : List Char := match sb.2.drop ip.length with
    | '.' :: rest => rest.takeWhile Char.isDigit
    | _ => []
  let den := 10 ^ fracDigits.length
  let mag := mkRat (Int.ofNat (digitsToNat ip * den + digitsToNat fracDigits)) den
  if sb.1 then Rat.neg mag else mag

/-- JS `slice(1, -1)`. -/
def slice1m1 (l : List Char) : List Char :=
  (l.drop 1).dropLast

/-- `parseQuotedString` from the source: double-quoted strings unescape
`\n`, `\"`, `\\` by three sequential global replaces in that order;
single-quoted strings unescape a doubled quote; anything else is returned
verbatim. -/
def parseQuotedString (raw : List Char) : List Char :=
  if ['"'].isPrefixOf raw ∧ ['"'].isSuffixOf raw then
    replaceAll [bslash, bslash] [bslash]
      (replaceAll [bslash, '"'] ['"']
        (replaceAll [bslash, 'n'] ['\n'] (slice1m1 raw)))
  else if [squote].isPrefixOf raw ∧ [squote].isSuffixOf raw then
    replaceAll [squote, squote] [squote] (slice1m1 raw)
  else raw

theorem length_slice1m1_lt (l : List Char) (hl : l ≠ []) :
    (slice1m1 l).length < l.length := by
  unfold slice1m1
  have : l.length ≠ 0 := fun h => hl (List.length_eq_zero.mp h)
  simp only [List.length_dropLast, List.length_drop]
  omega

theorem bracket_slice_bound (raw : List Char) (a b : Char) (hab : a ≠ b)
    (h1 : [a].isPrefixOf (jsTrim raw)) (h2 : [b].isSuffixOf (jsTrim raw)) :
    (slice1m1 (jsTrim raw)).length + 1 < raw.length := by
  have hp := List.isPrefixOf_iff_prefix.mp h1
  have hs := List.isSuffixOf_iff_suffix.mp h2
  obtain ⟨u, hu⟩ := hp
  obtain ⟨v, hv⟩ := hs
  have hlen2 : 2 ≤ (jsTrim raw).length := by
    by_contra hlt
    push_neg at hlt
    have h1len : (jsTrim raw).length = 1 := by
      have : ([a] ++ u).length = (jsTrim raw).length := by rw [hu]
      simp only [List.length_append, List.length_cons, List.length_nil] at this
      omega
    have hu0 : u = [] := by
      have : ([a] ++ u).length = 1 := by rw [hu, h1len]
      simp only [List.length_append, List.length_cons, List.length_nil] at this
      exact List.length_eq_zero.mp (by omega)
    have hv0 : v = [] := by
      have : (v ++ [b]).length = 1 := by rw [hv, h1len]
      simp only [List.length_append, List.length_cons, List.length_nil] at this
      exact List.length_eq_zero.mp (by omega)
    rw [hu0] at hu
    rw [hv0] at hv
    simp only [List.append_nil, List.nil_append] at hu hv
    rw [← hu] at hv
    injection hv with hba _
    exact hab hba.symm
  have htrim := length_jsTrim_le raw
  have hslice : (slice1m1 (jsTrim raw)).length = (jsTrim raw).length - 2 := by
    unfold slice1m1
    simp only [List.length_dropLast, List.length_drop]
    omega
  omega

mutual

/-- `parseScalar` from the source: recognition order is null forms, booleans,
integer pattern, float pattern, quoted strings, inline array, inline object,
bare string.  Errors from nested inline-object fragments propagate. -/
def parseScalar (rawValue : List Char) : Except String Value :=
  let trimmed := jsTrim rawValue
  if trimmed = [] ∨ trimmed = "null".data ∨ trimmed = "~".data then .ok .vnull
  else if trimmed = "true".data ∨ trimmed = "True".data then .ok (.vbool true)
  else if trimmed = "false".data ∨ trimmed = "False".data then .ok (.vbool false)
  else if intRegexTest trimmed then .ok (.vnum (mkRat (parseIntM trimmed) 1))
  else if floatRegexTest trimmed then .ok (.vnum (parseFloatM trimmed))
  else if (['"'].isPrefixOf trimmed ∧ ['"'].isSuffixOf trimmed) ∨
      ([squote].isPrefixOf trimmed ∧ [squote].isSuffixOf trimmed) then
    .ok (.vstr (String.mk (parseQuotedString trimmed)))
  else if h7 : ['['].isPrefixOf trimmed ∧ [']'].isSuffixOf trimmed then
    parseInlineArray (slice1m1 trimmed)
  else if h8 : [lbrace].isPrefixOf trimmed ∧ [rbrace].isSuffixOf trimmed then
    parseInlineObject (slice1m1 trimmed)
  else .ok (.vstr (String.mk trimmed))
termination_by (rawValue.length, 0)
decreasing_by
  · simp_wf
    exact Prod.Lex.left _ _ (bracket_slice_bound rawValue '[' ']' (by decide) h7.1 h7.2)
  · simp_wf
    exact Prod.Lex.left _ _ (bracket_slice_bound rawValue lbrace rbrace (by decide) h8.1 h8.2)

/-- `parseInlineArray` from the source: whitespace-only bodies give an empty
sequence; otherwise each top-level comma fragment is scalar-parsed. -/
def parseInlineArray (body : List Char) : Except String Value :=
  if isWhitespaceOnly body then .ok (.varr [])
  else do
    let vals ← parseArrayParts (body.length + 1) (splitTopLevel ',' body)
      (fun p hp => Nat.lt_succ_of_le (splitTopLevel_length_le ',' body p hp))
    .ok (.varr vals)
termination_by (body.length + 1, (splitTopLevel ',' body).length + 1)
decreasing_by
  simp_wf
  exact Prod.Lex.right _ (Nat.lt_succ_self _)

/-- The `parts.map(parseScalar)` loop of `parseInlineArray`; `bound` carries
the fragment-length bound used for termination. -/
def parseArrayParts (bound : Nat) (parts : List (List Char))
    (h : ∀ p ∈ parts, p.length < bound) : Except String (List Value) :=
  match parts with
  | [] => .ok []
  | p :: rest => do
    let v ← parseScalar p
    let vs ← parseArrayParts bound rest
      (fun q hq => h q (List.mem_cons_of_mem _ hq))
    .ok (v :: vs)
termination_by (bound, parts.length)
decreasing_by
  · simp_wf
    exact Prod.Lex.left _ _ (h p (List.mem_cons_self p rest))
  · simp_wf
    exact Prod.Lex.right _ (Nat.lt_succ_self _)

/-- `parseInlineObject` from the source: whitespace-only bodies give an empty
mapping; otherwise each top-level comma fragment is split once on its first
`:`; a fragment without `:` raises the malformed-fragment error. -/
def parseInlineObject (body : List Char) : Except String Value :=
  if isWhitespaceOnly body then .ok (.vobj [])
  else do
    let fields ← parseObjectParts (body.length + 1) (splitTopLevel ',' body)
      (fun p hp => Nat.lt_succ_of_le (splitTopLevel_length_le ',' body p hp)) []
    .ok (.vobj fields)
termination_by (body.length + 1, (splitTopLevel ',' body).length + 1)
decreasing_by
  simp_wf
  exact Prod.Lex.right _ (Nat.lt_succ_self _)

/-- The fragment loop of `parseInlineObject`, accumulating assignments with
JS property-write semantics. -/
def parseObjectParts (bound : Nat) (parts : List (List Char))
    (h : ∀ p ∈ parts, p.length < bound) (acc : List (String × Value)) :
    Except String (List (String × Value)) :=
  match parts with
  | [] => .ok acc
  | p :: rest =>
    match indexOfChar ':' p with
    | none => .error ("Invalid inline object fragment: " ++ String.mk p)
    | some colonIdx => do
      let key := jsTrim (p.take colonIdx)
      let rawVal := jsTrim (p.drop (colonIdx + 1))
      let v ← parseScalar rawVal
      parseObjectParts bound rest
        (fun q hq => h q (List.mem_cons_of_mem _ hq))
        (objSet acc (String.mk key) v)
termination_by (bound, parts.length)
decreasing_by
  · simp_wf
    have hp : p.length < bound := h p (List.mem_cons_self p rest)
    have hdrop : (List.drop (colonIdx + 1) p).length ≤ p.length := by
      simp only [List.length_drop]
      omega
    have htr := length_jsTrim_le (List.drop (colonIdx + 1) p)
    exact Prod.Lex.left _ _ (by omega)
  · simp_wf
    exact Prod.Lex.right _ (Nat.lt_succ_self _)

end


/-- Container payload of a parse frame: the sequence or mapping being built. -/
inductive Container where
  | arrC : List Value → Container
  | objC : List (String × Value) → Container
deriving Repr, DecidableEq

/-- The finished value of a container. -/
def contToValue : Container → Value
  | .arrC xs => .varr xs
  | .objC fs => .vobj fs

/-- How a frame's container is written into its parent when the frame is
popped.  In the source the child container is linked into the parent by
reference at creation time; a parent is never observed or modified while a
child frame sits above it, so linking at pop time is equivalent.  `discard`
models the JS assignment of a string-keyed property on an array, which is
invisible to every consumer of the tree and to serialization. -/
inductive Slot where
  | root : Slot
  | objKey : String → Slot
  | arrPush : Slot
  | discard : Slot
deriving Repr, DecidableEq

/-- One parser stack frame: the container being built, the indentation column
the container starts at (`-1` for the document root), an optional pending key
`(key, indent of its line)`, and the write-back slot. -/
structure Frame where
  cont : Container
  indent : Int
  pending : Option (String × Int)
  slot : Slot
deriving Repr, DecidableEq

/-- Write a popped frame's container back into its parent frame. -/
def linkInto (parent child : Frame) : Frame :=
  match child.slot, parent.cont with
  | .objKey k, .objC fs => { parent with cont := .objC (objSet fs k (contToValue child.cont)) }
  | .arrPush, .arrC xs => { parent with cont := .arrC (xs ++ [contToValue child.cont]) }
  | _, _ => parent

/-- The dedent loop: `while (stack.length > 1 && indent <= top.indent) pop`.
A frame popped here has its pending key silently discarded (the source never
assigns it on this path).  The stack's top is the head of the list. -/
def popFrames (indent : Int) : List Frame → List Frame
  | f :: g :: rest =>
    if indent ≤ f.indent then popFrames indent (linkInto g f :: rest)
    else f :: g :: rest
  | l => l
termination_by l => l.length
decreasing_by
  simp only [List.length_cons]
  omega

/-- Does the trimmed line start with `-` (a sequence item)? -/
def startsDash : List Char → Bool
  | '-' :: _ => true
  | _ => false

/-- Pending-key resolution (source lines 165-195): with a pending key on the
top frame, a deeper line opens a child frame (sequence if it starts with `-`,
mapping otherwise) bound under the pending key at the pending key's indent; a
line at the pending key's indent or less merely clears the pending key,
binding nothing. -/
def resolvePending (indent : Int) (trimmed : List Char) (stack : List Frame) :
    List Frame :=
  match stack with
  | f :: rest =>
    match f.pending with
    | some (k, pindent) =>
      if pindent < indent then
        let childSlot : Slot := match f.cont with
          | .objC _ => .objKey k
          | .arrC _ => .discard
        let child : Frame :=
          { cont := if startsDash trimmed then .arrC [] else .objC []
            indent := pindent
            pending := none
            slot := childSlot }
        child :: { f with pending := none } :: rest
      else
        { f with pending := none } :: rest
    | none => stack
  | [] => stack

/-- The sequence-item branch (source lines 214-248), once the top frame is a
sequence frame `a` sitting above `below`.  `indent` is the line's indent. -/
def dashItem (lineNum : Nat) (indent : Int) (trimmed : List Char)
    (a : Frame) (below : List Frame) : Except String (List Frame) :=
  let content := jsTrim (trimmed.drop 1)
  if content = [] then
    .ok ({ cont := .objC [], indent := indent, pending := none, slot := .arrPush }
      :: a :: below)
  else
    match indexOfChar ':' content with
    | some ci => do
      let key := String.mk (jsTrim (content.take ci))
      let valuePart := jsTrim (content.drop (ci + 1))
      if valuePart = [] then
        .ok ({ cont := .objC [(key, .vobj [])], indent := indent
               pending := some (key, indent), slot := .arrPush } :: a :: below)
      else do
        let v ← parseScalar valuePart
        .ok ({ cont := .objC [(key, v)], indent := indent
               pending := none, slot := .arrPush } :: a :: below)
    | none => do
      let v ← parseScalar content
      match a.cont with
      | .arrC xs => .ok ({ a with cont := .arrC (xs ++ [v]) } :: below)
      | .objC _ => .ok (a :: below)

/-- One line of the block parser's state machine (one iteration of the main
loop of `parseYAML`). -/
def processLine (lineNum : Nat) (rawLine : List Char) (stack : List Frame) :
    Except String (List Frame) :=
  if isWhitespaceOnly rawLine then .ok stack
  else
    let indent : Int := (leadingWhitespaceCount rawLine : Int)
    let trimmed := jsTrim rawLine
    let stack2 := resolvePending indent trimmed (popFrames indent stack)
    match stack2 with
    | [] => .ok stack2
    | f :: rest =>
      if startsDash trimmed then
        match f.cont with
        | .objC _ =>
          match f.pending with
          | none => .error ("Unexpected list item at line " ++ toString (lineNum + 1))
          | some (k, pindent) =>
            -- dead code in the source (a pending key cannot survive the
            -- resolution step above), embedded faithfully: open a sequence
            -- frame under the pending key
            dashItem lineNum indent trimmed
              { cont := .arrC [], indent := pindent, pending := none, slot := .objKey k }
              ({ f with pending := none } :: rest)
        | .arrC _ => dashItem lineNum indent trimmed f rest
      else
        match indexOfChar ':' trimmed with
        | none =>
          .error ("Unable to parse line " ++ toString (lineNum + 1) ++ ": " ++
            String.mk trimmed)
        | some ci => do
          let key := String.mk (jsTrim (trimmed.take ci))
          let valuePart := jsTrim (trimmed.drop (ci + 1))
          if valuePart = [] then
            .ok ({ f with pending := some (key, indent) } :: rest)
          else do
            let v ← parseScalar valuePart
            match f.cont with
            | .objC fs => .ok ({ f with cont := .objC (objSet fs key v) } :: rest)
            | .arrC _ =>
              -- JS string-keyed write on an array: dropped (see `Slot.discard`)
              .ok (f :: rest)

/-- Fold of `processLine` over the prepared lines, numbering from zero. -/
def processLines (stack : List Frame) (lineNum : Nat) :
    List (List Char) → Except String (List Frame)
  | [] => .ok stack
  | l :: rest => do
    let s ← processLine lineNum l stack
    processLines s (lineNum + 1) rest

/-- End-of-input unwind (source lines 263-268): pop every frame above the
root; a popped frame with an unresolved pending key causes an empty mapping
to be assigned under that key in the PARENT frame's container (the source's
`stack[stack.length-1].container[top.pending.key] = {}`, which targets the
parent, not the frame the key was written on). -/
def unwindStack : List Frame → List Frame
  | f :: g :: rest =>
    let g1 := linkInto g f
    let g2 := match f.pending with
      | some (k, _) =>
        match g1.cont with
        | .objC fs => { g1 with cont := .objC (objSet fs k (.vobj [])) }
        | .arrC _ => g1
      | none => g1
    unwindStack (g2 :: rest)
  | l => l
termination_by l => l.length
decreasing_by
  simp only [List.length_cons]
  omega

/-- Normalize line endings: the `/\r\n?/g → "\n"` replace. -/
def normalizeNewlines : List Char → List Char
  | [] => []
  | '\r' :: '\n' :: rest => '\n' :: normalizeNewlines rest
  | '\r' :: rest => '\n' :: normalizeNewlines rest
  | c :: rest => c :: normalizeNewlines rest

/-- JS `split("\n")` (an empty text yields one empty line). -/
def splitOnNewline : List Char → List (List Char)
  | [] => [[]]
  | c :: rest =>
    if c = '\n' then [] :: splitOnNewline rest
    else
      match splitOnNewline rest with
      | l :: ls => (c :: l) :: ls
      | [] => [[c]]

/-- Tab expansion: `replace(/\t/g, "  ")`. -/
def expandTabs (l : List Char) : List Char :=
  l.flatMap (fun c => if c = '\t' then [' ', ' '] else [c])

/-- Line preparation of `parseYAML`: split, strip comments, expand tabs,
strip trailing whitespace. -/
def prepareLines (text : List Char) : List (List Char) :=
  (splitOnNewline (normalizeNewlines text)).map
    (fun line => jsTrimEnd (expandTabs (stripComments line)))

/-- `parseYAML` from the source: the indentation-driven block parser.  The
root is a mapping frame at indent `-1`; the result is the root container.  A
pending key left on the root at end of input is dropped (the unwind only
assigns pending keys of popped frames, and the root is never popped). -/
def parseYAML (text : String) : Except String Value := do
  let root : Frame := { cont := .objC [], indent := -1, pending := none, slot := .root }
  let final ← processLines [root] 0 (prepareLines text.data)
  match unwindStack final with
  | [f] => .ok (contToValue f.cont)
  | _ => .ok .vnull


/-- JS `String(n)` for the numbers reachable here: integers print in plain
decimal; non-integers print sign, integer part, point and fraction digits
using the least number of digits that represents the value exactly.  Every
parser-produced number is a finite decimal, for which this coincides with the
shortest round-trip printing of JS doubles on the inputs used below. -/
def ratToString (q : Rat) : String :=
  if q.den = 1 then toString q.num
  else
    let sign := if q.num < 0 then "-" else ""
    let n := q.num.natAbs
    let d := q.den
    let ipN := n / d
    let r := n % d
    -- `q` is stored in lowest terms, so the fraction `r / d` terminates after
    -- exactly the least `k + 1` decimal digits with `d` dividing `10 ^ (k+1)`
    match (List.range 400).find? (fun k => d ∣ 10 ^ (k + 1)) with
    | some k =>
      let digits := r * 10 ^ (k + 1) / d
      let ds := toString digits
      let padded := String.mk (List.replicate (k + 1 - ds.length) '0') ++ ds
      sign ++ toString ipN ++ "." ++ padded
    | none => sign ++ toString ipN

/-- The bare-word pattern `/^[-A-Za-z0-9_\.]+$/` of `needsQuoting`. -/
def bareWordOk (l : List Char) : Bool :=
  !l.isEmpty && l.all (fun c => c = '-' || c.isAlpha || c.isDigit || c = '_' || c = '.')

/-- `needsQuoting` from the source. -/
def needsQuoting (l : List Char) : Bool :=
  !bareWordOk l || containsSub [':', ' '] l || l.isEmpty

/-- `quoteString` from the source: escape backslashes, then quotes, and wrap
in double quotes. -/
def quoteString (l : List Char) : String :=
  String.mk ('"' :: (replaceAll ['"'] [bslash, '"'] (replaceAll [bslash] [bslash, bslash] l)
    ++ ['"']))

mutual

/-- JS `String(v)` (only the scalar cases are reachable from the
serializer, which routes containers to the recursive printer first). -/
def jsToStringV : Value → String
  | .vnull => "null"
  | .vbool b => if b then "true" else "false"
  | .vnum q => ratToString q
  | .vstr s => s
  | .varr xs => jsArrJoin xs
  | .vobj _ => "[object Object]"

/-- JS `Array.prototype.toString`: elements joined with commas, `null`
becoming empty. -/
def jsArrJoin : List Value → String
  | [] => ""
  | [x] => jsArrElem x
  | x :: y :: rest => jsArrElem x ++ "," ++ jsArrJoin (y :: rest)

/-- One element of an array join (`null` prints empty inside a join). -/
def jsArrElem : Value → String
  | .vnull => ""
  | v => jsToStringV v

end

/-- `serializeScalar` from the source.  In the rational model every number is
finite, so the non-finite-degrades-to-null branch cannot fire. -/
def serializeScalar : Value → String
  | .vnull => "null"
  | .vbool b => if b then "true" else "false"
  | .vnum q => ratToString q
  | .vstr s => if needsQuoting s.data then quoteString s.data else s
  | v => quoteString (jsToStringV v).data

/-- `" ".repeat(n)`. -/
def mkIndent (n : Nat) : String :=
  String.mk (List.replicate n ' ')

/-- JS `split("\n")` on a string. -/
def splitLinesS (s : String) : List String :=
  (splitOnNewline s.data).map String.mk

/-- `trimStart` on a string. -/
def trimStartS (s : String) : String :=
  String.mk (jsTrimStart s.data)

/-- Re-indentation of a nested serialization line under a dash (source lines
307-313): keep the part after the child indent if the line starts with it,
otherwise trim it, then prepend the child indent. -/
def reindentLine (ci : Nat) (line : String) : String :=
  let cind := List.replicate ci ' '
  let l := line.data
  if cind.isPrefixOf l then String.mk (cind ++ l.drop ci)
  else String.mk (cind ++ jsTrimStart l)

mutual

/-- `stringifyYAML` from the source: the block serializer. -/
def stringifyYAML (value : Value) (indentSize indentLevel : Nat) : String :=
  match value with
  | .varr [] => mkIndent indentLevel ++ "[]"
  | .varr (x :: xs) =>
    String.intercalate "\n" (stringifyItems (x :: xs) indentSize indentLevel)
  | .vobj [] => mkIndent indentLevel ++ "\x7b\x7d"
  | .vobj (e :: es) =>
    String.intercalate "\n" (stringifyEntries (e :: es) indentSize indentLevel)
  | v => mkIndent indentLevel ++ serializeScalar v

/-- The element lines of a sequence serialization. -/
def stringifyItems (items : List Value) (indentSize indentLevel : Nat) :
    List String :=
  match items with
  | [] => []
  | item :: rest =>
    let line :=
      if item.isContainer then
        let nested := stringifyYAML item indentSize (indentLevel + indentSize)
        match splitLinesS nested with
        | [] => mkIndent indentLevel ++ "- "
        | firstLine :: tail =>
          if tail = [] then mkIndent indentLevel ++ "- " ++ trimStartS firstLine
          else
            mkIndent indentLevel ++ "- " ++ trimStartS firstLine ++ "\n" ++
              String.intercalate "\n"
                (tail.map (reindentLine (indentLevel + indentSize)))
      else mkIndent indentLevel ++ "- " ++ serializeScalar item
    line :: stringifyItems rest indentSize indentLevel

/-- The entry lines of a mapping serialization. -/
def stringifyEntries (entries : List (String × Value))
    (indentSize indentLevel : Nat) : List String :=
  match entries with
  | [] => []
  | (key, val) :: rest =>
    let pfx := mkIndent indentLevel ++
      (if needsQuoting key.data then quoteString key.data else key) ++ ":"
    let line :=
      if val.isContainer then
        pfx ++ "\n" ++ stringifyYAML val indentSize (indentLevel + indentSize)
      else pfx ++ " " ++ serializeScalar val
    line :: stringifyEntries rest indentSize indentLevel

end


/-- `normaliseRoom` from the source: trim, then lowercase. -/
def normaliseRoom (s : String) : String :=
  String.mk ((jsTrim s.data).map jsToLower)

/-- The per-character step of the `slugifyArea` loop: transliterate ä/ö/ü/ß,
keep `[a-z0-9]`, map space and `/` to `_`, drop everything else. -/
def slugChar (c : Char) : List Char :=
  if c = 'ä' then "ae".data
  else if c = 'ö' then "oe".data
  else if c = 'ü' then "ue".data
  else if c = 'ß' then "ss".data
  else if c.isLower ∨ c.isDigit then [c]
  else if c = ' ' ∨ c = '/' then ['_']
  else []

/-- `slugifyArea` from the source: trim, lowercase, then the per-character
mapping. -/
def slugifyArea (name : String) : String :=
  String.mk (((jsTrim name.data).map jsToLower).flatMap slugChar)

/-- `isBubblePopup` from the source: a vertical-stack record whose non-empty
cards sequence starts with a `custom:bubble-card` of card type `pop-up`. -/
def isBubblePopup (stack : Value) : Bool :=
  match stack with
  | .vobj fs =>
    match objGet fs "type" with
    | some (.vstr t) =>
      if t = "vertical-stack" then
        match objGet fs "cards" with
        | some (.varr (first :: _)) =>
          match first with
          | .vobj ffs =>
            (match objGet ffs "type" with
             | some (.vstr a) => a = "custom:bubble-card"
             | _ => false) &&
            (match objGet ffs "card_type" with
             | some (.vstr b) => b = "pop-up"
             | _ => false)
          | _ => false
        | _ => false
      else false
    | _ => false
  | _ => false

mutual

/-- `extractAreaFromNode` from the source: a record's string `area` field, or
its `target.area_id` string field, else a depth-first scan of the children in
which an empty extracted string is skipped (the source's truthiness test). -/
def extractAreaFromNode : Value → Option String
  | .vobj fs =>
    match objGet fs "area" with
    | some (.vstr s) => some s
    | _ =>
      match objGet fs "target" with
      | some (.vobj tfs) =>
        match objGet tfs "area_id" with
        | some (.vstr s) => some s
        | _ => extractAreaScanFields fs
      | _ => extractAreaScanFields fs
  | .varr xs => extractAreaScanItems xs
  | _ => none

/-- The `Object.values` loop of `extractAreaFromNode`. -/
def extractAreaScanFields : List (String × Value) → Option String
  | [] => none
  | (_, v) :: rest =>
    match extractAreaFromNode v with
    | some s => if s = "" then extractAreaScanFields rest else some s
    | none => extractAreaScanFields rest

/-- The array loop of `extractAreaFromNode`. -/
def extractAreaScanItems : List Value → Option String
  | [] => none
  | v :: rest =>
    match extractAreaFromNode v with
    | some s => if s = "" then extractAreaScanItems rest else some s
    | none => extractAreaScanItems rest

end

/-- `MatchResult`: the matched slot position (if any) and the positions of
further matches. -/
structure MatchResult where
  index : Option Nat
  duplicates : List Nat
deriving Repr, DecidableEq

/-- The per-slot match test of `findExistingStack`, evaluated only on slots
that pass `isBubblePopup`; an unknown strategy raises the error. -/
def strategyProbe (strategy room areaId : String) (stack : Value) :
    Except String Bool :=
  let head : Value := match stack.get "cards" with
    | some (.varr (h :: _)) => h
    | _ => .vnull
  if strategy = "name" then
    let nm := match head.get "name" with
      | some (.vstr s) => normaliseRoom s
      | _ => ""
    .ok (nm = normaliseRoom room)
  else if strategy = "hash" then
    .ok (decide (head.get "hash" = some (.vstr ("#" ++ areaId ++ "-popup"))))
  else if strategy = "area" then
    .ok (decide (extractAreaFromNode stack = some areaId))
  else .error ("Unknown detection strategy: " ++ strategy)

/-- The `cards.forEach` scan of `findExistingStack`: the first match is kept
as the index, later matches are appended to the duplicates. -/
def findGo (room areaId strategy : String) :
    List Value → Nat → Option Nat → List Nat → Except String MatchResult
  | [], _, found, dups => .ok ⟨found, dups⟩
  | c :: rest, idx, found, dups =>
    if isBubblePopup c then do
      let m ← strategyProbe strategy room areaId c
      if m then
        match found with
        | none => findGo room areaId strategy rest (idx + 1) (some idx) dups
        | some _ => findGo room areaId strategy rest (idx + 1) found (dups ++ [idx])
      else findGo room areaId strategy rest (idx + 1) found dups
    else findGo room areaId strategy rest (idx + 1) found dups

/-- `findExistingStack` from the source. -/
def findExistingStack (grid : Value) (room areaId strategy : String) :
    Except String MatchResult :=
  match grid.get "cards" with
  | some (.varr cards) => findGo room areaId strategy cards 0 none []
  | _ => .error "Grid cards structure is invalid or missing"

/-- `deepClone` from the source (`structuredClone` or a JSON round trip):
a full structural copy, which is the identity on pure value trees. -/
def deepClone (v : Value) : Value := v

/-- JS truthiness of a tree value (`NaN` is not modelled; no number reaching
a truthiness test here is ever `NaN`). -/
def jsTruthy : Value → Bool
  | .vnull => false
  | .vbool b => b
  | .vnum q => decide (q.num ≠ 0)
  | .vstr s => decide (s ≠ "")
  | _ => true

/-- Lookup in the placeholder table (a three-entry JS object literal in the
source; prototype-chain lookups are not modelled, and no placeholder string
used below collides with a prototype property name). -/
def replLookup (repl : List (String × String)) (s : String) : Option String :=
  match repl.find? (fun kv => kv.1 = s) with
  | some kv => some kv.2
  | none => none

/-- One string leaf under `replacePlaceholders`: replaced when the table maps
it to a truthy (non-empty) string; `__ICON__` is replaced by a truthy icon
value.  Returns the new value and the `(replaced, iconApplied)` flags. -/
def replLeaf (repl : List (String × String)) (icon : Option Value) (s : String) :
    Value × Bool × Bool :=
  match replLookup repl s with
  | some r =>
    if r ≠ "" then (.vstr r, true, false) else (.vstr s, false, false)
  | none =>
    if s = "__ICON__" then
      match icon with
      | some iv => if jsTruthy iv then (iv, false, true) else (.vstr s, false, false)
      | none => (.vstr s, false, false)
    else (.vstr s, false, false)

mutual

/-- `replacePlaceholders` on a non-root node (every node that has a parent in
the source traversal). -/
def replChild (repl : List (String × String)) (icon : Option Value) :
    Value → Value × Bool × Bool
  | .vstr s => replLeaf repl icon s
  | .varr xs =>
    let r := replItems repl icon xs
    (.varr r.1, r.2)
  | .vobj fs =>
    let r := replFields repl icon fs
    (.vobj r.1, r.2)
  | v => (v, false, false)

/-- Children of an array under `replacePlaceholders`. -/
def replItems (repl : List (String × String)) (icon : Option Value) :
    List Value → List Value × Bool × Bool
  | [] => ([], false, false)
  | x :: xs =>
    let hd := replChild repl icon x
    let tl := replItems repl icon xs
    (hd.1 :: tl.1, hd.2.1 || tl.2.1, hd.2.2 || tl.2.2)

/-- Children of an object under `replacePlaceholders`. -/
def replFields (repl : List (String × String)) (icon : Option Value) :
    List (String × Value) → List (String × Value) × Bool × Bool
  | [] => ([], false, false)
  | (k, v) :: fs =>
    let hd := replChild repl icon v
    let tl := replFields repl icon fs
    ((k, hd.1) :: tl.1, hd.2.1 || tl.2.1, hd.2.2 || tl.2.2)

end

/-- `replacePlaceholders` from the source.  The root node itself is visited
with a null parent and is therefore never replaced; only descendants are. -/
def replacePlaceholders (repl : List (String × String)) (icon : Option Value)
    (node : Value) : Value × Bool × Bool :=
  match node with
  | .varr xs =>
    let r := replItems repl icon xs
    (.varr r.1, r.2)
  | .vobj fs =>
    let r := replFields repl icon fs
    (.vobj r.1, r.2)
  | v => (v, false, false)

mutual

/-- The traversal of `applyHeuristics`: every record field named `area` is
set to the derived identifier and every record-valued field named `target`
has its `area_id` set.  (In the source the `area_id` write happens just
before the subtree is traversed; since the traversal maps an `area_id` field
holding that string to itself, writing it after the traversal, as
`heurTarget` does, yields the same tree.) -/
def heurVal (areaId : String) : Value → Value
  | .varr xs => .varr (heurItems areaId xs)
  | .vobj fs => .vobj (heurFields areaId fs)
  | v => v

/-- Array elements under the heuristics traversal. -/
def heurItems (areaId : String) : List Value → List Value
  | [] => []
  | x :: xs => heurVal areaId x :: heurItems areaId xs

/-- Object fields under the heuristics traversal. -/
def heurFields (areaId : String) :
    List (String × Value) → List (String × Value)
  | [] => []
  | (k, v) :: fs =>
    (if k = "area" then (k, Value.vstr areaId)
     else if k = "target" ∧ isRecord v then (k, heurTarget areaId v)
     else (k, heurVal areaId v)) :: heurFields areaId fs

/-- A record under a `target` key: traverse it and force its `area_id`. -/
def heurTarget (areaId : String) : Value → Value
  | .vobj tfs => .vobj (objSet (heurFields areaId tfs) "area_id" (.vstr areaId))
  | v => v

end

/-- The first-slot fix-up of `applyHeuristics` (source lines 510-520): when
the stack has a non-empty cards sequence whose first element is a record, an
existing `name` field is set to the room and an existing `hash` field to the
anchor token; absent fields are not created. -/
def fixFirstCard (room areaId : String) (stack : Value) : Value :=
  match stack with
  | .vobj fs =>
    match objGet fs "cards" with
    | some (.varr (first :: rest)) =>
      match first with
      | .vobj ffs =>
        let f1 := if (objGet ffs "name").isSome then objSet ffs "name" (.vstr room) else ffs
        let f2 := if (objGet f1 "hash").isSome then
            objSet f1 "hash" (.vstr ("#" ++ areaId ++ "-popup"))
          else f1
        .vobj (objSet fs "cards" (.varr (.vobj f2 :: rest)))
      | _ => stack
    | _ => stack
  | _ => stack

/-- `applyHeuristics` from the source: the unconditional traversal followed
by the first-slot fix-up. -/
def applyHeuristics (room areaId : String) (stack : Value) : Value :=
  fixFirstCard room areaId (heurVal areaId stack)

/-- `TemplateApplication`: the rewritten subtree plus the placeholder and
icon flags. -/
structure TemplateApplication where
  stack : Value
  replacedPlaceholders : Bool
  iconApplied : Bool
deriving Repr, DecidableEq

/-- `deepApplyTemplate` from the source: clone, substitute placeholders, then
run the heuristics pass. -/
def deepApplyTemplate (template : Value) (room areaId : String)
    (iconMap : Option (List (String × Value))) : TemplateApplication :=
  let stack0 := deepClone template
  let repl := [("__AREA_NAME__", room), ("__AREA_ID__", areaId),
    ("__HASH__", "#" ++ areaId ++ "-popup")]
  let iconValue : Option Value := match iconMap with
    | some m =>
      match m.find? (fun kv => kv.1 = room) with
      | some kv => some kv.2
      | none => none
    | none => none
  let r := replacePlaceholders repl iconValue stack0
  { stack := applyHeuristics room areaId r.1
    replacedPlaceholders := r.2.1
    iconApplied := r.2.2 }

/-- `replaceOrAppend` from the source: with a match index the slot is
overwritten in place (the `keep-index` branch and the default branch of the
source are textually identical); without one the stack is appended.  Returns
the updated grid and the touched index. -/
def replaceOrAppend (grid : Value) (index : Option Nat) (stack : Value)
    (insertMode : String) : Except String (Value × Nat) :=
  match grid with
  | .vobj fs =>
    match objGet fs "cards" with
    | some (.varr cards) =>
      match index with
      | some i =>
        if insertMode = "keep-index" then
          .ok (.vobj (objSet fs "cards" (.varr (cards.set i stack))), i)
        else
          .ok (.vobj (objSet fs "cards" (.varr (cards.set i stack))), i)
      | none =>
        .ok (.vobj (objSet fs "cards" (.varr (cards ++ [stack]))), cards.length)
    | _ => .error "Grid cards must be an array"
  | _ => .error "Grid cards must be an array"

/-- One line of the per-identifier report. -/
structure ReportEntry where
  room : String
  areaId : String
  action : String
  index : Nat
  duplicates : List Nat
  placeholdersUsed : Bool
deriving Repr, DecidableEq

/-- The configuration bundle handed to `processGrid`. -/
structure Options where
  indent : Nat
  detectBy : String
  insertMode : String
  iconMap : Option (List (String × Value))

/-- The `rooms.forEach` loop of `processGrid`: per identifier, in order:
string check, slug derivation, match, template application (always against
the original template value), splice, report entry. -/
def processRooms (template : Value) (opts : Options) :
    List Value → Value → List ReportEntry →
      Except String (Value × List ReportEntry)
  | [], grid, rep => .ok (grid, rep)
  | r :: rest, grid, rep =>
    match r with
    | .vstr room => do
      let areaId := slugifyArea room
      let m ← findExistingStack grid room areaId opts.detectBy
      let applied := deepApplyTemplate template room areaId opts.iconMap
      let res ← replaceOrAppend grid m.index applied.stack opts.insertMode
      processRooms template opts rest res.1 (rep ++
        [{ room := room, areaId := areaId
           action := if m.index = none then "created" else "updated"
           index := res.2, duplicates := m.duplicates
           placeholdersUsed := applied.replacedPlaceholders }])
    | _ => .error "Rooms JSON must only contain strings"

/-- The grid-shape validation of `processGrid`. -/
def gridShapeOk (g : Value) : Bool :=
  match g with
  | .vobj fs =>
    (match objGet fs "type" with
     | some (.vstr t) => t = "grid"
     | _ => false) &&
    (match objGet fs "cards" with
     | some (.varr _) => true
     | _ => false)
  | _ => false

/-- The template root validation of `processGrid`. -/
def templateRootOk (t : Value) : Bool :=
  match t with
  | .vobj fs =>
    match objGet fs "type" with
    | some (.vstr ty) => ty = "vertical-stack"
    | _ => false
  | _ => false

/-- The template cards validation of `processGrid`. -/
def templateCardsOk (t : Value) : Bool :=
  match t.get "cards" with
  | some (.varr (_ :: _)) => true
  | _ => false

/-- The template first-card validation of `processGrid`. -/
def templateFirstCardOk (t : Value) : Bool :=
  match t.get "cards" with
  | some (.varr (first :: _)) =>
    match first with
    | .vobj ffs =>
      (match objGet ffs "type" with
       | some (.vstr a) => a = "custom:bubble-card"
       | _ => false) &&
      (match objGet ffs "card_type" with
       | some (.vstr b) => b = "pop-up"
       | _ => false)
    | _ => false
  | _ => false

/-- `processGrid` from the source.  The rooms feed enters as already-parsed
data: the spec treats the identifier list as an external collaborator that
hands the core parsed input, so the `JSON.parse` call and its failure branch
sit outside the model. -/
def processGrid (gridSource : String) (rooms : Value) (templateSource : String)
    (opts : Options) : Except String (String × List ReportEntry) := do
  let grid ← parseYAML gridSource
  let template ← parseYAML templateSource
  match rooms with
  | .varr roomList =>
    if gridShapeOk grid then
      if templateRootOk template then
        if templateCardsOk template then
          if templateFirstCardOk template then do
            let res ← processRooms template opts roomList (deepClone grid) []
            .ok (stringifyYAML res.1 opts.indent 0, res.2)
          else .error "Template first card must be a custom:bubble-card pop-up"
        else .error "Template stack requires cards"
      else .error "Template YAML must be a vertical-stack"
    else .error "Grid YAML must describe a Lovelace grid with cards"
  | _ => .error "Rooms JSON must be a list of strings"


/-!
Heap model.  The frame-effect claims about `deepClone` and the two rewriting
passes concern JS reference semantics (mutation and aliasing of the object
graph), which the pure tree embedding above cannot express.  The definitions
below embed the same functions against an explicit store: containers live at
addresses, mutation is a store update, and `structuredClone` materializes a
fresh copy.  Graph traversals take fuel (JS recursion on a cyclic graph would
not terminate either); on the acyclic graphs built here any sufficiently
large fuel succeeds.
-/

/-- Heap values: scalars are immediate, containers are references. -/
inductive HVal where
  | hnull : HVal
  | hbool : Bool → HVal
  | hnum : Rat → HVal
  | hstr : String → HVal
  | href : Nat → HVal
deriving Repr, DecidableEq

/-- Heap nodes: the mutable containers of the JS object graph. -/
inductive HNode where
  | harr : List HVal → HNode
  | hobj : List (String × HVal) → HNode
deriving Repr, DecidableEq

/-- A store: association list from addresses to nodes, plus the next fresh
address. -/
structure Store where
  mem : List (Nat × HNode)
  next : Nat
deriving Repr, DecidableEq

/-- Address lookup. -/
def storeGet (sigma : Store) (a : Nat) : Option HNode :=
  match sigma.mem.find? (fun kv => kv.1 = a) with
  | some kv => some kv.2
  | none => none

/-- Entry update for an address list (in place, like `objSet`). -/
def hmemSet : List (Nat × HNode) → Nat → HNode → List (Nat × HNode)
  | [], a, n => [(a, n)]
  | (b, m) :: rest, a, n =>
    if b = a then (b, n) :: rest else (b, m) :: hmemSet rest a n

/-- Node write (mutation of the container at an address). -/
def storeSet (sigma : Store) (a : Nat) (n : HNode) : Store :=
  { sigma with mem := hmemSet sigma.mem a n }

/-- Field read on heap object fields. -/
def objGetH (fields : List (String × HVal)) (key : String) : Option HVal :=
  match fields.find? (fun kv => kv.1 = key) with
  | some kv => some kv.2
  | none => none

/-- Field write on heap object fields (JS property-set semantics). -/
def objSetH : List (String × HVal) → String → HVal → List (String × HVal)
  | [], key, v => [(key, v)]
  | (k0, v0) :: rest, key, v =>
    if k0 = key then (k0, v) :: rest else (k0, v0) :: objSetH rest key v

mutual

/-- Materialize a pure tree in the store at fresh addresses (children first,
then the node itself; addresses are handed out sequentially from `next`). -/
def allocValue : Value → Store → HVal × Store
  | .vnull, sigma => (.hnull, sigma)
  | .vbool b, sigma => (.hbool b, sigma)
  | .vnum q, sigma => (.hnum q, sigma)
  | .vstr s, sigma => (.hstr s, sigma)
  | .varr xs, sigma =>
    let r := allocItems xs sigma
    let a := r.2.next
    (.href a, { mem := r.2.mem ++ [(a, .harr r.1)], next := a + 1 })
  | .vobj fs, sigma =>
    let r := allocFields fs sigma
    let a := r.2.next
    (.href a, { mem := r.2.mem ++ [(a, .hobj r.1)], next := a + 1 })

/-- Materialize a list of children left to right. -/
def allocItems : List Value → Store → List HVal × Store
  | [], sigma => ([], sigma)
  | v :: vs, sigma =>
    let r1 := allocValue v sigma
    let r2 := allocItems vs r1.2
    (r1.1 :: r2.1, r2.2)

/-- Materialize object fields left to right. -/
def allocFields : List (String × Value) → Store → List (String × HVal) × Store
  | [], sigma => ([], sigma)
  | (k, v) :: fs, sigma =>
    let r1 := allocValue v sigma
    let r2 := allocFields fs r1.2
    ((k, r1.1) :: r2.1, r2.2)

end

mutual

/-- Read the pure tree rooted at a heap value (the observable content of the
graph; `none` when the fuel runs out or a reference dangles). -/
def readbackF : Nat → HVal → Store → Option Value
  | 0, _, _ => none
  | Nat.succ fuel, h, sigma =>
    match h with
    | .hnull => some .vnull
    | .hbool b => some (.vbool b)
    | .hnum q => some (.vnum q)
    | .hstr s => some (.vstr s)
    | .href a =>
      match storeGet sigma a with
      | some (.harr xs) =>
        match readbackItemsF fuel xs sigma with
        | some vs => some (.varr vs)
        | none => none
      | some (.hobj fs) =>
        match readbackFieldsF fuel fs sigma with
        | some gs => some (.vobj gs)
        | none => none
      | none => none
termination_by fuel _ _ => (fuel, 0)

/-- Read back a list of children. -/
def readbackItemsF : Nat → List HVal → Store → Option (List Value)
  | _, [], _ => some []
  | fuel, x :: xs, sigma =>
    match readbackF fuel x sigma with
    | some v =>
      match readbackItemsF fuel xs sigma with
      | some vs => some (v :: vs)
      | none => none
    | none => none
termination_by fuel xs _ => (fuel, xs.length + 1)

/-- Read back object fields. -/
def readbackFieldsF : Nat → List (String × HVal) → Store → Option (List (String × Value))
  | _, [], _ => some []
  | fuel, (k, x) :: fs, sigma =>
    match readbackF fuel x sigma with
    | some v =>
      match readbackFieldsF fuel fs sigma with
      | some vs => some ((k, v) :: vs)
      | none => none
    | none => none
termination_by fuel fs _ => (fuel, fs.length + 1)

end

/-- `deepClone` on the heap: `structuredClone` materializes a fresh copy of
the reachable graph (here via readback of the pure content followed by a
fresh allocation, which is what a structural copy of an acyclic graph is). -/
def deepCloneH (fuel : Nat) (h : HVal) (sigma : Store) : Option (HVal × Store) :=
  match readbackF fuel h sigma with
  | some v => some (allocValue v sigma)
  | none => none

/-- JS truthiness of a heap value (containers are truthy). -/
def jsTruthyH : HVal → Bool
  | .hnull => false
  | .hbool b => b
  | .hnum q => decide (q.num ≠ 0)
  | .hstr s => decide (s ≠ "")
  | .href _ => true

/-- One child entry under the heap `replacePlaceholders` visitor: a string in
the placeholder table becomes its truthy replacement; `__ICON__` becomes a
truthy icon value (note: the icon value itself, reference included). -/
def replChildH (repl : List (String × String)) (icon : Option HVal) (h : HVal) :
    HVal × Bool × Bool :=
  match h with
  | .hstr s =>
    match replLookup repl s with
    | some r => if r ≠ "" then (.hstr r, true, false) else (h, false, false)
    | none =>
      if s = "__ICON__" then
        match icon with
        | some iv => if jsTruthyH iv then (iv, false, true) else (h, false, false)
        | none => (h, false, false)
      else (h, false, false)
  | _ => (h, false, false)

/-- Rewrite the immediate children of an array node. -/
def replRewriteItems (repl : List (String × String)) (icon : Option HVal) :
    List HVal → List HVal × Bool × Bool
  | [] => ([], false, false)
  | x :: xs =>
    let hd := replChildH repl icon x
    let tl := replRewriteItems repl icon xs
    (hd.1 :: tl.1, hd.2.1 || tl.2.1, hd.2.2 || tl.2.2)

/-- Rewrite the immediate children of an object node. -/
def replRewriteFields (repl : List (String × String)) (icon : Option HVal) :
    List (String × HVal) → List (String × HVal) × Bool × Bool
  | [] => ([], false, false)
  | (k, x) :: fs =>
    let hd := replChildH repl icon x
    let tl := replRewriteFields repl icon fs
    ((k, hd.1) :: tl.1, hd.2.1 || tl.2.1, hd.2.2 || tl.2.2)

mutual

/-- Heap `replacePlaceholders`: rewrite each node's string children, then
recurse into the node's original children.  (The source's traversal binds a
child before the visitor replaces it, so a replaced string is not descended
into and an inserted icon value is never itself traversed by this pass;
rewriting a node's entries in one step before the recursions therefore
produces the same store.)  The root has no parent and is never replaced. -/
def replaceHGo (repl : List (String × String)) (icon : Option HVal) :
    Nat → HVal → Store → Option (Store × Bool × Bool)
  | 0, _, _ => none
  | Nat.succ fuel, .href a, sigma =>
    match storeGet sigma a with
    | some (.harr xs) =>
      let rw := replRewriteItems repl icon xs
      match replaceHItems repl icon fuel xs (storeSet sigma a (.harr rw.1)) with
      | some r => some (r.1, rw.2.1 || r.2.1, rw.2.2 || r.2.2)
      | none => none
    | some (.hobj fs) =>
      let rw := replRewriteFields repl icon fs
      match replaceHFields repl icon fuel fs (storeSet sigma a (.hobj rw.1)) with
      | some r => some (r.1, rw.2.1 || r.2.1, rw.2.2 || r.2.2)
      | none => none
    | none => none
  | Nat.succ _, _, sigma => some (sigma, false, false)
termination_by fuel _ _ => (fuel, 0)

/-- Recursions into an array node's original children. -/
def replaceHItems (repl : List (String × String)) (icon : Option HVal) :
    Nat → List HVal → Store → Option (Store × Bool × Bool)
  | _, [], sigma => some (sigma, false, false)
  | fuel, x :: xs, sigma =>
    match replaceHGo repl icon fuel x sigma with
    | some r1 =>
      match replaceHItems repl icon fuel xs r1.1 with
      | some r2 => some (r2.1, r1.2.1 || r2.2.1, r1.2.2 || r2.2.2)
      | none => none
    | none => none
termination_by fuel xs _ => (fuel, xs.length + 1)

/-- Recursions into an object node's original children. -/
def replaceHFields (repl : List (String × String)) (icon : Option HVal) :
    Nat → List (String × HVal) → Store → Option (Store × Bool × Bool)
  | _, [], sigma => some (sigma, false, false)
  | fuel, (_, x) :: fs, sigma =>
    match replaceHGo repl icon fuel x sigma with
    | some r1 =>
      match replaceHFields repl icon fuel fs r1.1 with
      | some r2 => some (r2.1, r1.2.1 || r2.2.1, r1.2.2 || r2.2.2)
      | none => none
    | none => none
termination_by fuel fs _ => (fuel, fs.length + 1)

end

/-- The in-place writes of the heap `applyHeuristics` visitor on one object
node's entry list: an `area` entry is overwritten in the node, a
record-valued `target` entry has its `area_id` written.  Writes only store
the fixed derived-identifier string, so performing a node's writes before the
child recursions yields the same store as the source's interleaving. -/
def heurWrites (areaId : String) (a : Nat) :
    List (String × HVal) → Store → Store
  | [], sigma => sigma
  | (k, v) :: fs, sigma =>
    let s1 :=
      if k = "area" then
        match storeGet sigma a with
        | some (.hobj cur) => storeSet sigma a (.hobj (objSetH cur k (.hstr areaId)))
        | _ => sigma
      else sigma
    let s2 :=
      if k = "target" then
        match v with
        | .href t =>
          match storeGet s1 t with
          | some (.hobj tfs) =>
            storeSet s1 t (.hobj (objSetH tfs "area_id" (.hstr areaId)))
          | _ => s1
        | _ => s1
      else s1
    heurWrites areaId a fs s2

mutual

/-- Heap `applyHeuristics` traversal. -/
def heurHGo (areaId : String) : Nat → HVal → Store → Option Store
  | 0, _, _ => none
  | Nat.succ fuel, .href a, sigma =>
    match storeGet sigma a with
    | some (.harr xs) => heurHItems areaId fuel xs sigma
    | some (.hobj fs) => heurHFields areaId fuel fs (heurWrites areaId a fs sigma)
    | none => none
  | Nat.succ _, _, sigma => some sigma
termination_by fuel _ _ => (fuel, 0)

/-- Recursions into an array node's children. -/
def heurHItems (areaId : String) : Nat → List HVal → Store → Option Store
  | _, [], sigma => some sigma
  | fuel, x :: xs, sigma =>
    match heurHGo areaId fuel x sigma with
    | some s1 => heurHItems areaId fuel xs s1
    | none => none
termination_by fuel xs _ => (fuel, xs.length + 1)

/-- Recursions into an object node's original children. -/
def heurHFields (areaId : String) :
    Nat → List (String × HVal) → Store → Option Store
  | _, [], sigma => some sigma
  | fuel, (_, x) :: fs, sigma =>
    match heurHGo areaId fuel x sigma with
    | some s1 => heurHFields areaId fuel fs s1
    | none => none
termination_by fuel fs _ => (fuel, fs.length + 1)

end

/-- The heap first-slot fix-up of `applyHeuristics`. -/
def fixFirstCardH (room areaId : String) (root : HVal) (sigma : Store) : Store :=
  match root with
  | .href a =>
    match storeGet sigma a with
    | some (.hobj fs) =>
      match objGetH fs "cards" with
      | some (.href c) =>
        match storeGet sigma c with
        | some (.harr (f :: _)) =>
          match f with
          | .href fa =>
            match storeGet sigma fa with
            | some (.hobj ffs) =>
              let s1 :=
                if (objGetH ffs "name").isSome then
                  storeSet sigma fa (.hobj (objSetH ffs "name" (.hstr room)))
                else sigma
              match storeGet s1 fa with
              | some (.hobj ffs1) =>
                if (objGetH ffs1 "hash").isSome then
                  storeSet s1 fa (.hobj (objSetH ffs1 "hash"
                    (.hstr ("#" ++ areaId ++ "-popup"))))
                else s1
              | _ => s1
            | _ => sigma
          | _ => sigma
        | _ => sigma
      | _ => sigma
    | _ => sigma
  | _ => sigma

/-- Heap `deepApplyTemplate`: clone the template graph, substitute
placeholders on the clone, run the heuristics pass and the first-slot fix-up
on the clone, and return the clone root with the flags. -/
def deepApplyTemplateH (fuel : Nat) (room areaId : String) (icon : Option HVal)
    (template : HVal) (sigma : Store) : Option (HVal × Store × Bool × Bool) :=
  let repl := [("__AREA_NAME__", room), ("__AREA_ID__", areaId),
    ("__HASH__", "#" ++ areaId ++ "-popup")]
  match deepCloneH fuel template sigma with
  | some (cv, s1) =>
    match replaceHGo repl icon fuel cv s1 with
    | some (s2, rep, icn) =>
      match heurHGo areaId fuel cv s2 with
      | some s3 => some (cv, fixFirstCardH room areaId cv s3, rep, icn)
      | none => none
    | none => none
  | none => none



/-- A heap value's reference, if any, is at or above `b`. -/
def hvalGEb (b : Nat) : HVal → Bool
  | .href a => decide (b ≤ a)
  | _ => true

/-- A heap value's reference, if any, is below `b`. -/
def hvalLTb (b : Nat) : HVal → Bool
  | .href a => decide (a < b)
  | _ => true

/-- Every child reference of the node is at or above `b`. -/
def nodeGEb (b : Nat) : HNode → Bool
  | .harr xs => xs.all (hvalGEb b)
  | .hobj fs => fs.all (fun kv => hvalGEb b kv.2)

/-- Every child reference of the node is below `b`. -/
def nodeLTb (b : Nat) : HNode → Bool
  | .harr xs => xs.all (hvalLTb b)
  | .hobj fs => fs.all (fun kv => hvalLTb b kv.2)

/-- Store well-formedness: every entry sits below the fresh-address watermark
and only references addresses below it. -/
def storeOk (sigma : Store) : Bool :=
  sigma.mem.all (fun kv => decide (kv.1 < sigma.next) && nodeLTb sigma.next kv.2)

/-- Relative closure: every node stored at an address at or above `b` only
references addresses at or above `b`. -/
def storeHighGE (b : Nat) (sigma : Store) : Bool :=
  sigma.mem.all (fun kv => decide (kv.1 < b) || nodeGEb b kv.2)

/-- Every node stored below `b` only references addresses below `b`. -/
def storeLowLT (b : Nat) (sigma : Store) : Bool :=
  sigma.mem.all (fun kv => decide (b ≤ kv.1) || nodeLTb b kv.2)

/-- The icon value bound for the room, when present, is a scalar rather than
an object reference. -/
def iconNonRef : Option HVal → Bool
  | some (.href _) => false
  | _ => true

/-- The two stores agree at every address below `b`. -/
def FrameBelow (b : Nat) (s1 s2 : Store) : Prop :=
  ∀ a, a < b → storeGet s2 a = storeGet s1 a

/-- What a fresh allocation guarantees about the resulting store: the old
entries are kept (the new region is appended), every new entry lies in the
fresh region and references only addresses of the fresh region, the old
region is untouched, and the produced root lies in the fresh region. -/
def AllocSpecStore (s s' : Store) : Prop :=
  s.next ≤ s'.next ∧
  (∀ e ∈ s'.mem, e ∈ s.mem ∨
    (s.next ≤ e.1 ∧ e.1 < s'.next ∧ nodeGEb s.next e.2 = true ∧
      nodeLTb s'.next e.2 = true)) ∧
  FrameBelow s.next s s'

/-- The store of the icon-sharing scenario: the caller's icon map value is
the object at address 0, the template is the object at address 1. -/
def iconObjStore : Store :=
  ⟨[(0, .hobj [("area", .hstr "orig")]),
    (1, .hobj [("icon", .hstr "__ICON__")])], 2⟩

/-- The store after applying the template once for room Alpha. -/
def iconObjStore1 : Store :=
  ⟨[(0, .hobj [("area", .hstr "alpha")]),
    (1, .hobj [("icon", .hstr "__ICON__")]),
    (2, .hobj [("icon", .href 0)])], 3⟩

/-- The store after applying the template again for room Beta. -/
def iconObjStore2 : Store :=
  ⟨[(0, .hobj [("area", .hstr "beta")]),
    (1, .hobj [("icon", .hstr "__ICON__")]),
    (2, .hobj [("icon", .href 0)]),
    (3, .hobj [("icon", .href 0)])], 4⟩

/-- The store of the scalar scenario: just a template object at address 0. -/
def plainTmplStore : Store :=
  ⟨[(0, .hobj [("name", .hstr "__AREA_NAME__")])], 1⟩

/-- The scalar scenario store after the application for Kitchen. -/
def plainTmplStore1 : Store :=
  ⟨[(0, .hobj [("name", .hstr "__AREA_NAME__")]),
    (1, .hobj [("name", .hstr "Kitchen")])], 2⟩

/-- The scalar scenario store after the further application for Office. -/
def plainTmplStore2 : Store :=
  ⟨[(0, .hobj [("name", .hstr "__AREA_NAME__")]),
    (1, .hobj [("name", .hstr "Kitchen")]),
    (2, .hobj [("name", .hstr "Office")])], 3⟩


/-- The pure per-slot match predicate for a valid strategy (the Boolean the
scan computes on a bubble-popup slot; false for other strategies, which
instead raise). -/
def strategyMatchB (strategy room areaId : String) (stack : Value) : Bool :=
  let head : Value := match stack.get "cards" with
    | some (.varr (h :: _)) => h
    | _ => .vnull
  if strategy = "name" then
    (match head.get "name" with
     | some (.vstr s) => normaliseRoom s
     | _ => "") = normaliseRoom room
  else if strategy = "hash" then
    decide (head.get "hash" = some (.vstr ("#" ++ areaId ++ "-popup")))
  else if strategy = "area" then
    decide (extractAreaFromNode stack = some areaId)
  else false

/-- A slot counts as matching when it passes the structural predicate and the
strategy test. -/
def matchSlot (strategy room areaId : String) (c : Value) : Bool :=
  isBubblePopup c && strategyMatchB strategy room areaId c

/-- The positions (from `idx`) of the matching slots, in scan order. -/
def matchIndicesFrom (strategy room areaId : String) :
    List Value → Nat → List Nat
  | [], _ => []
  | c :: rest, idx =>
    if matchSlot strategy room areaId c then
      idx :: matchIndicesFrom strategy room areaId rest (idx + 1)
    else matchIndicesFrom strategy room areaId rest (idx + 1)


mutual

/-- Every record field literally named `area`, anywhere in the tree, holds
the string `a`. -/
def areaForced (a : String) : Value → Bool
  | .vobj fs => areaForcedFields a fs
  | .varr xs => areaForcedItems a xs
  | _ => true

/-- `areaForced` over object fields. -/
def areaForcedFields (a : String) : List (String × Value) → Bool
  | [] => true
  | (k, v) :: fs =>
    (if k = "area" then decide (v = Value.vstr a) else true) &&
      areaForced a v && areaForcedFields a fs

/-- `areaForced` over sequence elements. -/
def areaForcedItems (a : String) : List Value → Bool
  | [] => true
  | v :: vs => areaForced a v && areaForcedItems a vs

end

mutual

/-- Every record-valued field literally named `target`, anywhere in the
tree, has an `area_id` field holding the string `a`. -/
def targetForced (a : String) : Value → Bool
  | .vobj fs => targetForcedFields a fs
  | .varr xs => targetForcedItems a xs
  | _ => true

/-- `targetForced` over object fields. -/
def targetForcedFields (a : String) : List (String × Value) → Bool
  | [] => true
  | (k, v) :: fs =>
    (if k = "target" ∧ isRecord v then
      decide (v.get "area_id" = some (.vstr a)) else true) &&
      targetForced a v && targetForcedFields a fs

/-- `targetForced` over sequence elements. -/
def targetForcedItems (a : String) : List Value → Bool
  | [] => true
  | v :: vs => targetForced a v && targetForcedItems a vs

end

/-!  Theorems.  -/

instance : DecidableEq (Except String Value) := fun a b =>
  match a, b with
  | .ok x, .ok y => if h : x = y then isTrue (by rw [h]) else isFalse (by simp [h])
  | .error x, .error y => if h : x = y then isTrue (by rw [h]) else isFalse (by simp [h])
  | .ok _, .error _ => isFalse (by simp)
  | .error _, .ok _ => isFalse (by simp)

theorem objGet_objSet_self (fs : List (String × Value)) (k : String) (v : Value) :
    objGet (objSet fs k v) k = some v := by
  induction fs with
  | nil => simp [objSet, objGet]
  | cons kv rest ih =>
    obtain ⟨k0, v0⟩ := kv
    by_cases h : k0 = k
    · subst h
      simp [objSet, objGet]
    · simp only [objSet, if_neg h]
      simp only [objGet, List.find?] at ih ⊢
      simp [h, ih]

theorem objGet_objSet_ne (fs : List (String × Value)) (k k' : String) (v : Value)
    (h : k ≠ k') : objGet (objSet fs k v) k' = objGet fs k' := by
  induction fs with
  | nil => simp [objSet, objGet, List.find?, h]
  | cons kv rest ih =>
    obtain ⟨k0, v0⟩ := kv
    by_cases h0 : k0 = k
    · subst h0
      simp [objSet, objGet, List.find?, h]
    · simp only [objSet, if_neg h0]
      simp only [objGet, List.find?] at ih ⊢
      by_cases h1 : k0 = k'
      · simp [h1]
      · simp [h1, ih]

unseal parseScalar parseInlineArray parseArrayParts parseInlineObject
  parseObjectParts replaceAll in
/-- C7: `parseScalar` maps the boundary inputs as specified: the empty string
and `~` to Null, `3.0` to the number 3.0, `03` to the integer 3 (JS has a
single number type, and `3.0` and `3` are the same number, modelled by the
same rational), and the double-quoted input `"a\nb"` to the string with an
embedded newline. -/
theorem parseScalar_boundary_cases :
    parseScalar "".data = .ok .vnull ∧
    parseScalar "~".data = .ok .vnull ∧
    parseScalar "3.0".data = .ok (.vnum 3) ∧
    parseScalar "03".data = .ok (.vnum 3) ∧
    parseScalar "\"a\\nb\"".data = .ok (.vstr "a\nb") := by
  refine ⟨rfl, rfl, by decide, by decide, rfl⟩

unseal parseScalar parseInlineArray parseArrayParts parseInlineObject
  parseObjectParts replaceAll in
/-- C10: top-level splitting of an inline sequence body keeps interior empty
fragments (an empty fragment between two separators parses as Null) but
drops a trailing empty fragment (a trailing separator adds no element). -/
theorem parseInlineArray_empty_fragments :
    parseInlineArray "1,,2".data = .ok (.varr [.vnum 1, .vnull, .vnum 2]) ∧
    parseInlineArray "1,2,".data = .ok (.varr [.vnum 1, .vnum 2]) := by
  refine ⟨by decide, by decide⟩

theorem slugChar_alphabet (c : Char) :
    (slugChar c).all (fun d => d.isLower || d.isDigit || d = '_') = true := by
  unfold slugChar
  split
  · decide
  · split
    · decide
    · split
      · decide
      · split
        · decide
        · split
          · rename_i h
            rcases h with h | h <;> simp [List.all, h]
          · split
            · decide
            · decide

/-- C8: `slugifyArea` lowercases and trims, transliterates ä, ö, ü, ß, keeps
`[a-z0-9]`, maps space and `/` to `_`, and drops every other character
(including `-`); consequently every character of the output lies in
`[a-z0-9_]`, and repeated calls agree. -/
theorem slugifyArea_spec :
    (∀ s : String,
      (slugifyArea s).data.all (fun d => d.isLower || d.isDigit || d = '_') = true) ∧
    (∀ s : String, slugifyArea s = slugifyArea s) ∧
    slugifyArea "ä" = "ae" ∧ slugifyArea "ö" = "oe" ∧ slugifyArea "ü" = "ue" ∧
    slugifyArea "ß" = "ss" ∧ slugifyArea " A b " = "a_b" ∧
    slugifyArea "a/b" = "a_b" ∧ slugifyArea "a-b" = "ab" ∧
    slugifyArea "Büro / Kühl-Raum" = "buero___kuehlraum" := by
  refine ⟨?_, fun s => rfl, rfl, rfl, rfl, rfl, rfl, rfl, rfl, rfl⟩
  intro s
  unfold slugifyArea
  rw [List.all_eq_true]
  intro d hd
  rw [show (String.mk (((jsTrim s.data).map jsToLower).flatMap slugChar)).data =
    ((jsTrim s.data).map jsToLower).flatMap slugChar from rfl] at hd
  rw [List.mem_flatMap] at hd
  obtain ⟨c, _, hdc⟩ := hd
  have h := slugChar_alphabet c
  rw [List.all_eq_true] at h
  exact h d hdc

unseal parseScalar parseInlineArray parseArrayParts parseInlineObject
  parseObjectParts replaceAll popFrames unwindStack in
/-- C1 (code bug): the round-trip property fails on parser-produced trees.
The document `a: "3"` parses to a tree binding `a` to the string `"3"`; the
serializer emits the string bare (its quoting rule only looks at the
character class, not at whether the bare form would re-parse as a number), so
re-parsing yields the number 3 and a structurally different tree. -/
theorem roundtrip_fails_on_numeric_string :
    parseYAML "a: \"3\"" = .ok (.vobj [("a", .vstr "3")]) ∧
    stringifyYAML (.vobj [("a", .vstr "3")]) 2 0 = "a: 3" ∧
    parseYAML (stringifyYAML (.vobj [("a", .vstr "3")]) 2 0) =
      .ok (.vobj [("a", .vnum 3)]) ∧
    (Except.ok (Value.vobj [("a", .vnum 3)]) : Except String Value) ≠
      .ok (.vobj [("a", .vstr "3")]) := by
  refine ⟨rfl, rfl, by decide, by decide⟩

unseal parseScalar parseInlineArray parseArrayParts parseInlineObject
  parseObjectParts replaceAll popFrames unwindStack in
/-- C2 (code bug): a mapping key with an empty value part and no deeper
following line is NOT bound to an empty mapping.  When the next non-blank
line is at equal or lesser indent the pending key is cleared and dropped
(the key `a` vanishes from the two-line document), and at end of input the
unwind assigns the empty mapping into the PARENT frame's container, so the
nested dangling key `b` is bound at the root instead of inside `a`. -/
theorem pending_key_not_bound_as_claimed :
    parseYAML "a:\nb: 1" = .ok (.vobj [("b", .vnum 1)]) ∧
    parseYAML "a:\n  b:" = .ok (.vobj [("a", .vobj []), ("b", .vobj [])]) :=
  ⟨rfl, rfl⟩


theorem strategyProbe_valid (strategy room areaId : String) (c : Value)
    (h : strategy = "name" ∨ strategy = "hash" ∨ strategy = "area") :
    strategyProbe strategy room areaId c =
      .ok (strategyMatchB strategy room areaId c) := by
  rcases h with h | h | h <;> subst h <;> rfl

theorem strategyProbe_invalid (strategy room areaId : String) (c : Value)
    (h1 : strategy ≠ "name") (h2 : strategy ≠ "hash") (h3 : strategy ≠ "area") :
    strategyProbe strategy room areaId c =
      .error ("Unknown detection strategy: " ++ strategy) := by
  unfold strategyProbe
  rw [if_neg h1, if_neg h2, if_neg h3]

theorem findGo_spec (room areaId strategy : String)
    (hval : strategy = "name" ∨ strategy = "hash" ∨ strategy = "area") :
    ∀ (cards : List Value) (idx : Nat) (found : Option Nat) (dups : List Nat),
      findGo room areaId strategy cards idx found dups = .ok
        { index := match found with
            | none => (matchIndicesFrom strategy room areaId cards idx).head?
            | some i => some i
          duplicates := dups ++ match found with
            | none => (matchIndicesFrom strategy room areaId cards idx).tail
            | some _ => matchIndicesFrom strategy room areaId cards idx } := by
  intro cards
  induction cards with
  | nil =>
    intro idx found dups
    cases found <;> simp [findGo, matchIndicesFrom]
  | cons c rest ih =>
    intro idx found dups
    by_cases hb : isBubblePopup c
    · simp only [findGo]
      rw [if_pos hb, strategyProbe_valid strategy room areaId c hval]
      by_cases hm : strategyMatchB strategy room areaId c
      · have hslot : matchSlot strategy room areaId c = true := by
          simp [matchSlot, hb, hm]
        cases found with
        | none =>
          simp only [Except.bind, hm, if_pos, bind]
          rw [ih (idx + 1) (some idx) dups]
          simp [matchIndicesFrom, hslot]
        | some i =>
          simp only [Except.bind, hm, if_pos, bind]
          rw [ih (idx + 1) (some i) (dups ++ [idx])]
          simp [matchIndicesFrom, hslot]
      · have hslot : matchSlot strategy room areaId c = false := by
          simp [matchSlot, hm]
        simp only [Except.bind, bind, hm, if_neg, Bool.false_eq_true, ite_false]
        rw [ih (idx + 1) found dups]
        cases found <;> simp [matchIndicesFrom, hslot]
    · have hslot : matchSlot strategy room areaId c = false := by
        simp [matchSlot, hb]
      simp only [findGo]
      rw [if_neg hb, ih (idx + 1) found dups]
      cases found <;> simp [matchIndicesFrom, hslot]

theorem matchIndicesFrom_ge (strategy room areaId : String) :
    ∀ (cards : List Value) (idx : Nat),
      ∀ j ∈ matchIndicesFrom strategy room areaId cards idx, idx ≤ j := by
  intro cards
  induction cards with
  | nil => intro idx j hj; simp [matchIndicesFrom] at hj
  | cons c rest ih =>
    intro idx j hj
    rw [matchIndicesFrom] at hj
    split at hj
    · rcases List.mem_cons.mp hj with h | h
      · omega
      · have := ih (idx + 1) j h
        omega
    · have := ih (idx + 1) j hj
      omega

theorem matchIndicesFrom_pairwise (strategy room areaId : String) :
    ∀ (cards : List Value) (idx : Nat),
      List.Pairwise (· < ·) (matchIndicesFrom strategy room areaId cards idx) := by
  intro cards
  induction cards with
  | nil => intro idx; simp [matchIndicesFrom]
  | cons c rest ih =>
    intro idx
    rw [matchIndicesFrom]
    split
    · refine List.Pairwise.cons ?_ (ih (idx + 1))
      intro j hj
      have := matchIndicesFrom_ge strategy room areaId rest (idx + 1) j hj
      omega
    · exact ih (idx + 1)

/-- C6: when the cards sequence has matching slots under a valid strategy
(at least two of them), `findExistingStack` returns the lowest matching
position as the index and the remaining matching positions, in ascending
order, as the duplicates; the first match is never overwritten. -/
theorem findExistingStack_first_match_and_duplicates
    (grid : Value) (cards : List Value) (room areaId strategy : String)
    (hc : grid.get "cards" = some (.varr cards))
    (hval : strategy = "name" ∨ strategy = "hash" ∨ strategy = "area")
    (hk : 2 ≤ (matchIndicesFrom strategy room areaId cards 0).length) :
    findExistingStack grid room areaId strategy =
      .ok { index := (matchIndicesFrom strategy room areaId cards 0).head?
            duplicates := (matchIndicesFrom strategy room areaId cards 0).tail } ∧
    List.Pairwise (· < ·) (matchIndicesFrom strategy room areaId cards 0) := by
  constructor
  · have h := findGo_spec room areaId strategy hval cards 0 none []
    simp only [List.nil_append] at h
    rw [findExistingStack, hc]
    exact h
  · exact matchIndicesFrom_pairwise strategy room areaId cards 0

/-- A concrete grid with two name-matching pop-up slots at positions 0 and 2
(position 1 is not a bubble pop-up), used to witness C6. -/
def dupCard : Value :=
  .vobj [("type", .vstr "vertical-stack"),
    ("cards", .varr [.vobj [("type", .vstr "custom:bubble-card"),
      ("card_type", .vstr "pop-up"), ("name", .vstr "Kitchen")]])]

/-- The grid holding `dupCard` twice around a non-matching slot. -/
def dupGrid : Value :=
  .vobj [("cards", .varr [dupCard, .vobj [("type", .vstr "markdown")], dupCard])]

theorem findExistingStack_first_match_witness :
    findExistingStack dupGrid "Kitchen" "kitchen" "name" =
      .ok { index := some 0, duplicates := [2] } := by
  have h := findExistingStack_first_match_and_duplicates dupGrid
    [dupCard, .vobj [("type", .vstr "markdown")], dupCard]
    "Kitchen" "kitchen" "name" (by rfl) (Or.inl rfl) (by decide)
  have hM : matchIndicesFrom "name" "Kitchen" "kitchen"
      [dupCard, .vobj [("type", .vstr "markdown")], dupCard] 0 = [0, 2] := by decide
  rw [hM] at h
  exact h.1

theorem findGo_all_non_popup (room areaId strategy : String) :
    ∀ (cards : List Value), (∀ c ∈ cards, isBubblePopup c = false) →
      ∀ idx found dups, findGo room areaId strategy cards idx found dups =
        .ok { index := found, duplicates := dups } := by
  intro cards
  induction cards with
  | nil => intro _ idx found dups; simp [findGo]
  | cons c rest ih =>
    intro h idx found dups
    have hc : isBubblePopup c = false := h c (List.mem_cons_self c rest)
    simp only [findGo]
    rw [if_neg (by simp [hc])]
    exact ih (fun d hd => h d (List.mem_cons_of_mem c hd)) (idx + 1) found dups

theorem findGo_popup_invalid_strategy (room areaId strategy : String)
    (h1 : strategy ≠ "name") (h2 : strategy ≠ "hash") (h3 : strategy ≠ "area") :
    ∀ (cards : List Value), (∃ c ∈ cards, isBubblePopup c = true) →
      ∀ idx found dups, findGo room areaId strategy cards idx found dups =
        .error ("Unknown detection strategy: " ++ strategy) := by
  intro cards
  induction cards with
  | nil => intro h; exact absurd h (by simp)
  | cons c rest ih =>
    intro h idx found dups
    by_cases hc : isBubblePopup c
    · simp only [findGo]
      rw [if_pos hc, strategyProbe_invalid strategy room areaId c h1 h2 h3]
      rfl
    · simp only [findGo]
      rw [if_neg hc]
      obtain ⟨d, hd, hdb⟩ := h
      rcases List.mem_cons.mp hd with rfl | hd2
      · exact absurd hdb (by simp [hc])
      · exact ih ⟨d, hd2, hdb⟩ (idx + 1) found dups

/-- C3 counterexample: an unknown strategy does not fail when the cards
sequence contains no slot passing the structural bubble-popup predicate
(empty cards, or only non-pop-up slots); the scan returns an empty result
because the strategy test is only evaluated per bubble-popup slot. -/
theorem findExistingStack_unknown_strategy_no_error :
    findExistingStack (.vobj [("cards", .varr [])]) "x" "x" "bogus" =
      .ok { index := none, duplicates := [] } ∧
    findExistingStack
      (.vobj [("cards", .varr [.vnum 1, .vobj [("type", .vstr "markdown")]])])
      "x" "x" "bogus" = .ok { index := none, duplicates := [] } :=
  ⟨rfl, rfl⟩

/-- C3 (amended): for a grid whose cards field is a sequence and a strategy
outside name/hash/area, `findExistingStack` fails with the unknown-strategy
error as soon as the sequence contains a bubble-popup slot; with no such slot
it instead returns an empty match result. -/
theorem findExistingStack_unknown_strategy
    (grid : Value) (cards : List Value) (room areaId strategy : String)
    (hc : grid.get "cards" = some (.varr cards))
    (h1 : strategy ≠ "name") (h2 : strategy ≠ "hash") (h3 : strategy ≠ "area") :
    ((∀ c ∈ cards, isBubblePopup c = false) →
      findExistingStack grid room areaId strategy =
        .ok { index := none, duplicates := [] }) ∧
    ((∃ c ∈ cards, isBubblePopup c = true) →
      findExistingStack grid room areaId strategy =
        .error ("Unknown detection strategy: " ++ strategy)) := by
  constructor
  · intro h
    rw [findExistingStack, hc]
    exact findGo_all_non_popup room areaId strategy cards h 0 none []
  · intro h
    rw [findExistingStack, hc]
    exact findGo_popup_invalid_strategy room areaId strategy h1 h2 h3 cards h 0 none []

theorem findExistingStack_unknown_strategy_witness :
    findExistingStack dupGrid "x" "x" "bogus" =
      .error "Unknown detection strategy: bogus" := by
  have h := (findExistingStack_unknown_strategy dupGrid
    [dupCard, .vobj [("type", .vstr "markdown")], dupCard] "x" "x" "bogus"
    (by rfl) (by decide) (by decide) (by decide)).2
    ⟨dupCard, by simp, by decide⟩
  exact h


theorem areaForcedFields_objSet (a : String) (fs : List (String × Value))
    (k : String) (v : Value) (hfs : areaForcedFields a fs = true)
    (hk : k = "area" → v = .vstr a) (hv : areaForced a v = true) :
    areaForcedFields a (objSet fs k v) = true := by
  induction fs with
  | nil =>
    simp only [objSet, areaForcedFields, Bool.and_eq_true]
    refine ⟨⟨?_, hv⟩, trivial⟩
    by_cases h : k = "area"
    · simp [h, hk h]
    · simp [h]
  | cons kv rest ih =>
    obtain ⟨k0, v0⟩ := kv
    simp only [areaForcedFields, Bool.and_eq_true] at hfs
    obtain ⟨⟨h0, h0v⟩, hrest⟩ := hfs
    by_cases h : k0 = k
    · subst h
      simp only [objSet, if_pos rfl, areaForcedFields, Bool.and_eq_true]
      refine ⟨⟨?_, hv⟩, hrest⟩
      by_cases hk0 : k0 = "area"
      · simp [hk0, hk hk0]
      · simp [hk0]
    · simp only [objSet, if_neg h, areaForcedFields, Bool.and_eq_true]
      exact ⟨⟨h0, h0v⟩, ih hrest⟩

theorem targetForcedFields_objSet (a : String) (fs : List (String × Value))
    (k : String) (v : Value) (hfs : targetForcedFields a fs = true)
    (hk : k = "target" ∧ isRecord v = true → v.get "area_id" = some (.vstr a))
    (hv : targetForced a v = true) :
    targetForcedFields a (objSet fs k v) = true := by
  induction fs with
  | nil =>
    simp only [objSet, targetForcedFields, Bool.and_eq_true]
    refine ⟨⟨?_, hv⟩, trivial⟩
    by_cases h : k = "target" ∧ isRecord v = true
    · simp [h, hk h]
    · simp [h]
  | cons kv rest ih =>
    obtain ⟨k0, v0⟩ := kv
    simp only [targetForcedFields, Bool.and_eq_true] at hfs
    obtain ⟨⟨h0, h0v⟩, hrest⟩ := hfs
    by_cases h : k0 = k
    · subst h
      simp only [objSet, if_pos rfl, targetForcedFields, Bool.and_eq_true]
      refine ⟨⟨?_, hv⟩, hrest⟩
      by_cases hk0 : k0 = "target" ∧ isRecord v = true
      · simp [hk0, hk hk0]
      · simp [hk0]
    · simp only [objSet, if_neg h, targetForcedFields, Bool.and_eq_true]
      exact ⟨⟨h0, h0v⟩, ih hrest⟩

mutual

theorem heurVal_areaForced (a : String) :
    ∀ v : Value, areaForced a (heurVal a v) = true
  | .vnull => rfl
  | .vbool _ => rfl
  | .vnum _ => rfl
  | .vstr _ => rfl
  | .varr xs => by
    simp only [heurVal, areaForced]
    exact heurItems_areaForced a xs
  | .vobj fs => by
    simp only [heurVal, areaForced]
    exact heurFields_areaForced a fs

theorem heurItems_areaForced (a : String) :
    ∀ xs : List Value, areaForcedItems a (heurItems a xs) = true
  | [] => rfl
  | x :: xs => by
    simp only [heurItems, areaForcedItems, Bool.and_eq_true]
    exact ⟨heurVal_areaForced a x, heurItems_areaForced a xs⟩

theorem heurFields_areaForced (a : String) :
    ∀ fs : List (String × Value), areaForcedFields a (heurFields a fs) = true
  | [] => rfl
  | (k, v) :: fs => by
    simp only [heurFields]
    by_cases h1 : k = "area"
    · rw [if_pos h1]
      simp only [areaForcedFields, Bool.and_eq_true]
      exact ⟨⟨by simp [h1], by simp [areaForced]⟩, heurFields_areaForced a fs⟩
    · rw [if_neg h1]
      by_cases h2 : k = "target" ∧ isRecord v = true
      · rw [if_pos h2]
        simp only [areaForcedFields, Bool.and_eq_true]
        refine ⟨⟨by simp [h1], ?_⟩, heurFields_areaForced a fs⟩
        obtain ⟨hk, hrec⟩ := h2
        cases v with
        | vobj tfs => exact heurTarget_areaForced a tfs
        | vnull => simp [isRecord] at hrec
        | vbool b => simp [isRecord] at hrec
        | vnum q => simp [isRecord] at hrec
        | vstr s => simp [isRecord] at hrec
        | varr xs => simp [isRecord] at hrec
      · rw [if_neg h2]
        simp only [areaForcedFields, Bool.and_eq_true]
        exact ⟨⟨by simp [h1], heurVal_areaForced a v⟩, heurFields_areaForced a fs⟩

theorem heurTarget_areaForced (a : String) :
    ∀ tfs : List (String × Value), areaForced a (heurTarget a (.vobj tfs)) = true
  | tfs => by
    simp only [heurTarget, areaForced]
    exact areaForcedFields_objSet a (heurFields a tfs) "area_id" (.vstr a)
      (heurFields_areaForced a tfs) (by intro h; simp) rfl

end

mutual

theorem heurVal_targetForced (a : String) :
    ∀ v : Value, targetForced a (heurVal a v) = true
  | .vnull => rfl
  | .vbool _ => rfl
  | .vnum _ => rfl
  | .vstr _ => rfl
  | .varr xs => by
    simp only [heurVal, targetForced]
    exact heurItems_targetForced a xs
  | .vobj fs => by
    simp only [heurVal, targetForced]
    exact heurFields_targetForced a fs

theorem heurItems_targetForced (a : String) :
    ∀ xs : List Value, targetForcedItems a (heurItems a xs) = true
  | [] => rfl
  | x :: xs => by
    simp only [heurItems, targetForcedItems, Bool.and_eq_true]
    exact ⟨heurVal_targetForced a x, heurItems_targetForced a xs⟩

theorem heurFields_targetForced (a : String) :
    ∀ fs : List (String × Value), targetForcedFields a (heurFields a fs) = true
  | [] => rfl
  | (k, v) :: fs => by
    simp only [heurFields]
    by_cases h1 : k = "area"
    · rw [if_pos h1]
      simp only [targetForcedFields, Bool.and_eq_true]
      refine ⟨⟨?_, rfl⟩, heurFields_targetForced a fs⟩
      by_cases h : k = "target" ∧ isRecord (Value.vstr a) = true
      · simp [isRecord] at h
      · simp [h]
    · rw [if_neg h1]
      by_cases h2 : k = "target" ∧ isRecord v = true
      · rw [if_pos h2]
        simp only [targetForcedFields, Bool.and_eq_true]
        obtain ⟨hk, hrec⟩ := h2
        refine ⟨⟨?_, ?_⟩, heurFields_targetForced a fs⟩
        swap
        · cases v with
          | vobj tfs => exact heurTarget_targetForced a tfs
          | vnull => simp [isRecord] at hrec
          | vbool b => simp [isRecord] at hrec
          | vnum q => simp [isRecord] at hrec
          | vstr s => simp [isRecord] at hrec
          | varr xs => simp [isRecord] at hrec
        cases v with
        | vobj tfs =>
          simp only [heurTarget]
          by_cases hcond : k = "target" ∧
              isRecord (Value.vobj (objSet (heurFields a tfs) "area_id" (.vstr a))) = true
          · rw [if_pos hcond]
            simp [Value.get, objGet_objSet_self]
          · exact absurd ⟨hk, by simp [isRecord]⟩ hcond
        | vnull => simp [isRecord] at hrec
        | vbool b => simp [isRecord] at hrec
        | vnum q => simp [isRecord] at hrec
        | vstr s => simp [isRecord] at hrec
        | varr xs => simp [isRecord] at hrec
      · rw [if_neg h2]
        simp only [targetForcedFields, Bool.and_eq_true]
        refine ⟨⟨?_, heurVal_targetForced a v⟩, heurFields_targetForced a fs⟩
        by_cases h : k = "target" ∧ isRecord (heurVal a v) = true
        · obtain ⟨hk, hrec⟩ := h
          cases v with
          | vobj tfs => exact absurd ⟨hk, by simp [isRecord]⟩ h2
          | vnull => simp [heurVal, isRecord] at hrec
          | vbool b => simp [heurVal, isRecord] at hrec
          | vnum q => simp [heurVal, isRecord] at hrec
          | vstr s => simp [heurVal, isRecord] at hrec
          | varr xs => simp [heurVal, isRecord] at hrec
        · simp [h]

theorem heurTarget_targetForced (a : String) :
    ∀ tfs : List (String × Value), targetForced a (heurTarget a (.vobj tfs)) = true
  | tfs => by
    simp only [heurTarget, targetForced]
    exact targetForcedFields_objSet a (heurFields a tfs) "area_id" (.vstr a)
      (heurFields_targetForced a tfs) (by intro h; simp [isRecord] at h) rfl

end


theorem areaForcedFields_objGet (a : String) (fs : List (String × Value))
    (k : String) (v : Value) (hfs : areaForcedFields a fs = true)
    (hget : objGet fs k = some v) : areaForced a v = true := by
  induction fs with
  | nil => simp [objGet] at hget
  | cons kv rest ih =>
    obtain ⟨k0, v0⟩ := kv
    simp only [areaForcedFields, Bool.and_eq_true] at hfs
    obtain ⟨⟨_, h0v⟩, hrest⟩ := hfs
    by_cases h : k0 = k
    · subst h
      simp [objGet, List.find?] at hget
      cases hget
      exact h0v
    · have hg2 : objGet rest k = some v := by
        simpa [objGet, List.find?, h] using hget
      exact ih hrest hg2

theorem targetForcedFields_objGet (a : String) (fs : List (String × Value))
    (k : String) (v : Value) (hfs : targetForcedFields a fs = true)
    (hget : objGet fs k = some v) : targetForced a v = true := by
  induction fs with
  | nil => simp [objGet] at hget
  | cons kv rest ih =>
    obtain ⟨k0, v0⟩ := kv
    simp only [targetForcedFields, Bool.and_eq_true] at hfs
    obtain ⟨⟨_, h0v⟩, hrest⟩ := hfs
    by_cases h : k0 = k
    · subst h
      simp [objGet, List.find?] at hget
      cases hget
      exact h0v
    · have hg2 : objGet rest k = some v := by
        simpa [objGet, List.find?, h] using hget
      exact ih hrest hg2

theorem areaForcedFields_setIf (a : String) (fs : List (String × Value))
    (k : String) (v : Value) (h : areaForcedFields a fs = true)
    (hk : k ≠ "area") (hv : areaForced a v = true) :
    areaForcedFields a (if (objGet fs k).isSome then objSet fs k v else fs) = true := by
  split
  · exact areaForcedFields_objSet a fs k v h (fun he => absurd he hk) hv
  · exact h

theorem targetForcedFields_setIf (a : String) (fs : List (String × Value))
    (k : String) (v : Value) (h : targetForcedFields a fs = true)
    (hk : k ≠ "target") (hv : targetForced a v = true) :
    targetForcedFields a (if (objGet fs k).isSome then objSet fs k v else fs) = true := by
  split
  · exact targetForcedFields_objSet a fs k v h (fun he => absurd he.1 hk) hv
  · exact h

theorem fixFirstCard_preserves_areaForced (room areaId : String) (s : Value)
    (h : areaForced areaId s = true) :
    areaForced areaId (fixFirstCard room areaId s) = true := by
  cases s with
  | vobj fs =>
    simp only [fixFirstCard]
    split
    case _ first rest heq =>
      split
      case _ ffs =>
        have harr : areaForced areaId (.varr (.vobj ffs :: rest)) = true :=
          areaForcedFields_objGet areaId fs "cards" _ h heq
        simp only [areaForced, areaForcedItems, Bool.and_eq_true] at harr
        obtain ⟨hffs, hrest⟩ := harr
        simp only [areaForced] at hffs ⊢
        have hf1 := areaForcedFields_setIf areaId ffs "name" (.vstr room) hffs
          (by decide) rfl
        have hf2 := areaForcedFields_setIf areaId
          (if (objGet ffs "name").isSome then objSet ffs "name" (.vstr room) else ffs)
          "hash" (.vstr ("#" ++ areaId ++ "-popup")) hf1 (by decide) rfl
        refine areaForcedFields_objSet areaId fs "cards" _ h
          (by intro hk; exact absurd hk (by decide)) ?_
        simp only [areaForced, areaForcedItems, Bool.and_eq_true]
        exact ⟨hf2, hrest⟩
      case _ => exact h
    case _ => exact h
  | vnull => exact h
  | vbool b => exact h
  | vnum q => exact h
  | vstr t => exact h
  | varr xs => exact h

theorem fixFirstCard_preserves_targetForced (room areaId : String) (s : Value)
    (h : targetForced areaId s = true) :
    targetForced areaId (fixFirstCard room areaId s) = true := by
  cases s with
  | vobj fs =>
    simp only [fixFirstCard]
    split
    case _ first rest heq =>
      split
      case _ ffs =>
        have harr : targetForced areaId (.varr (.vobj ffs :: rest)) = true :=
          targetForcedFields_objGet areaId fs "cards" _ h heq
        simp only [targetForced, targetForcedItems, Bool.and_eq_true] at harr
        obtain ⟨hffs, hrest⟩ := harr
        simp only [targetForced] at hffs ⊢
        have hf1 := targetForcedFields_setIf areaId ffs "name" (.vstr room) hffs
          (by decide) rfl
        have hf2 := targetForcedFields_setIf areaId
          (if (objGet ffs "name").isSome then objSet ffs "name" (.vstr room) else ffs)
          "hash" (.vstr ("#" ++ areaId ++ "-popup")) hf1 (by decide) rfl
        refine targetForcedFields_objSet areaId fs "cards" _ h
          (by intro hk; exact absurd hk.1 (by decide)) ?_
        simp only [targetForced, targetForcedItems, Bool.and_eq_true]
        exact ⟨hf2, hrest⟩
      case _ => exact h
    case _ => exact h
  | vnull => exact h
  | vbool b => exact h
  | vnum q => exact h
  | vstr t => exact h
  | varr xs => exact h


theorem fixFirstCard_first_card (room areaId : String) (s : Value)
    (ffs : List (String × Value)) (rest : List Value)
    (h : (fixFirstCard room areaId s).get "cards" =
      some (.varr (.vobj ffs :: rest))) :
    (objGet ffs "name" ≠ none → objGet ffs "name" = some (.vstr room)) ∧
    (objGet ffs "hash" ≠ none →
      objGet ffs "hash" = some (.vstr ("#" ++ areaId ++ "-popup"))) := by
  cases s with
  | vobj fs =>
    simp only [fixFirstCard] at h
    split at h
    case _ first rest0 heq =>
      split at h
      case _ ffs0 =>
        simp only [Value.get, objGet_objSet_self, Option.some.injEq,
          Value.varr.injEq, List.cons.injEq, Value.vobj.injEq] at h
        obtain ⟨hffs, hrest⟩ := h
        subst hffs
        constructor
        · intro hne
          by_cases c1 : (objGet ffs0 "name").isSome
          · simp only [if_pos c1] at hne ⊢
            by_cases c2 : (objGet (objSet ffs0 "name" (.vstr room)) "hash").isSome
            · rw [if_pos c2, objGet_objSet_ne _ "hash" "name" _ (by decide),
                objGet_objSet_self]
            · rw [if_neg c2, objGet_objSet_self]
          · exfalso
            apply hne
            simp only [if_neg c1]
            by_cases c2 : (objGet ffs0 "hash").isSome
            · rw [if_pos c2, objGet_objSet_ne _ "hash" "name" _ (by decide)]
              exact Option.not_isSome_iff_eq_none.mp c1
            · rw [if_neg c2]
              exact Option.not_isSome_iff_eq_none.mp c1
        · intro hne
          by_cases c1 : (objGet ffs0 "name").isSome
          · simp only [if_pos c1] at hne ⊢
            by_cases c2 : (objGet (objSet ffs0 "name" (.vstr room)) "hash").isSome
            · rw [if_pos c2, objGet_objSet_self]
            · exfalso
              apply hne
              rw [if_neg c2]
              exact Option.not_isSome_iff_eq_none.mp c2
          · simp only [if_neg c1] at hne ⊢
            by_cases c2 : (objGet ffs0 "hash").isSome
            · rw [if_pos c2, objGet_objSet_self]
            · exfalso
              apply hne
              rw [if_neg c2]
              exact Option.not_isSome_iff_eq_none.mp c2
      case _ hne1 =>
        simp only [Value.get] at h
        rw [heq] at h
        simp only [Option.some.injEq, Value.varr.injEq, List.cons.injEq] at h
        exact absurd h.1 (fun he => hne1 ffs he)
    case _ hne1 =>
      simp only [Value.get] at h
      exact absurd h (fun he => hne1 (Value.vobj ffs) rest he)
  | vnull => simp [fixFirstCard, Value.get] at h
  | vbool b => simp [fixFirstCard, Value.get] at h
  | vnum q => simp [fixFirstCard, Value.get] at h
  | vstr t => simp [fixFirstCard, Value.get] at h
  | varr xs => simp [fixFirstCard, Value.get] at h


/-- C4 (amended): after `deepApplyTemplate`, in the returned subtree every
record field literally named `area` holds the derived identifier, every
record-valued `target` field has its `area_id` equal to the derived
identifier, and the first element of the cards sequence has its `name` forced
to the room and its `hash` forced to the anchor token provided those fields
were already present (the pass updates existing fields, it does not create
them) — all independent of whether the template contains placeholders. -/
theorem deepApplyTemplate_forces_identity_fields (template : Value)
    (room areaId : String) (iconMap : Option (List (String × Value))) :
    areaForced areaId (deepApplyTemplate template room areaId iconMap).stack = true ∧
    targetForced areaId (deepApplyTemplate template room areaId iconMap).stack = true ∧
    ∀ ffs rest,
      (deepApplyTemplate template room areaId iconMap).stack.get "cards" =
        some (.varr (.vobj ffs :: rest)) →
      (objGet ffs "name" ≠ none → objGet ffs "name" = some (.vstr room)) ∧
      (objGet ffs "hash" ≠ none →
        objGet ffs "hash" = some (.vstr ("#" ++ areaId ++ "-popup"))) := by
  refine ⟨?_, ?_, ?_⟩
  · exact fixFirstCard_preserves_areaForced room areaId _
      (heurVal_areaForced areaId _)
  · exact fixFirstCard_preserves_targetForced room areaId _
      (heurVal_targetForced areaId _)
  · intro ffs rest h
    exact fixFirstCard_first_card room areaId _ ffs rest h

/-- C4 counterexample: with a template whose first slot has no `name` field,
the heuristic pass does not create one; the produced first slot still has no
`name`, contradicting the claim that it always equals the room. -/
theorem deepApplyTemplate_missing_name_counterexample :
    (deepApplyTemplate (.vobj [("cards", .varr [.vobj [("type", .vstr "x")]])])
        "Room" "room" none).stack.get "cards" =
      some (.varr [.vobj [("type", .vstr "x")]]) ∧
    objGet [("type", Value.vstr "x")] "name" = none ∧
    objGet [("type", Value.vstr "x")] "name" ≠ some (.vstr "Room") :=
  ⟨rfl, rfl, by decide⟩

/-- A template whose first slot carries `name`, `hash` and `area` fields,
used to witness C4. -/
def heurTemplate : Value :=
  .vobj [("cards", .varr [.vobj [("name", .vstr "old"), ("hash", .vstr "oldhash"),
    ("area", .vstr "oldarea")], .vobj [("target", .vobj [])]])]

theorem deepApplyTemplate_forces_identity_witness :
    objGet [("name", Value.vstr "Room"), ("hash", .vstr "#room-popup"),
      ("area", .vstr "room")] "name" = some (.vstr "Room") ∧
    objGet [("name", Value.vstr "Room"), ("hash", .vstr "#room-popup"),
      ("area", .vstr "room")] "hash" = some (.vstr "#room-popup") ∧
    areaForced "room" (deepApplyTemplate heurTemplate "Room" "room" none).stack = true := by
  have h := deepApplyTemplate_forces_identity_fields heurTemplate "Room" "room" none
  have h3 := h.2.2 [("name", Value.vstr "Room"), ("hash", .vstr "#room-popup"),
    ("area", .vstr "room")] [.vobj [("target", .vobj [("area_id", .vstr "room")])]] (by rfl)
  exact ⟨h3.1 (by decide), h3.2 (by decide), h.1⟩


/-- C5 (amended): for a valid grid with a unique slot matching the first
identifier and a second identifier that matches no slot of the grid as it
stands when it is processed (i.e. also not the freshly spliced slot), the
report has an "updated" entry preserving the matched index followed by a
"created" entry at the original slot count, the new slot being appended at
the end — in identifier order. -/
theorem processGrid_update_then_create
    (gridSrc tmplSrc : String) (r1 r2 : String) (opts : Options)
    (gfs : List (String × Value)) (tmpl : Value) (cards : List Value)
    (i : Nat) (p1s : Value)
    (hg : parseYAML gridSrc = .ok (.vobj gfs))
    (ht : parseYAML tmplSrc = .ok tmpl)
    (hshape : gridShapeOk (.vobj gfs) = true)
    (hcards : objGet gfs "cards" = some (.varr cards))
    (htr : templateRootOk tmpl = true)
    (htc : templateCardsOk tmpl = true)
    (htf : templateFirstCardOk tmpl = true)
    (hm1 : findExistingStack (.vobj gfs) r1 (slugifyArea r1) opts.detectBy =
      .ok ⟨some i, []⟩)
    (hs1 : p1s = (deepApplyTemplate tmpl r1 (slugifyArea r1) opts.iconMap).stack)
    (hm2 : findExistingStack (.vobj (objSet gfs "cards" (.varr (cards.set i p1s))))
      r2 (slugifyArea r2) opts.detectBy = .ok ⟨none, []⟩) :
    processGrid gridSrc (.varr [.vstr r1, .vstr r2]) tmplSrc opts =
      .ok (stringifyYAML (.vobj (objSet (objSet gfs "cards" (.varr (cards.set i p1s)))
            "cards" (.varr (cards.set i p1s ++
              [(deepApplyTemplate tmpl r2 (slugifyArea r2) opts.iconMap).stack]))))
          opts.indent 0,
        [{ room := r1, areaId := slugifyArea r1, action := "updated", index := i,
           duplicates := [], placeholdersUsed :=
             (deepApplyTemplate tmpl r1 (slugifyArea r1) opts.iconMap).replacedPlaceholders },
         { room := r2, areaId := slugifyArea r2, action := "created",
           index := cards.length, duplicates := [], placeholdersUsed :=
             (deepApplyTemplate tmpl r2 (slugifyArea r2) opts.iconMap).replacedPlaceholders }]) := by
  subst hs1
  rw [processGrid, hg, ht]
  simp only [Except.bind, bind]
  rw [if_pos hshape, if_pos htr, if_pos htc, if_pos htf]
  simp only [deepClone]
  rw [processRooms, hm1]
  simp only [Except.bind, bind]
  simp only [replaceOrAppend, hcards]
  rw [ite_self]
  simp only [Except.bind, bind]
  rw [processRooms, hm2]
  simp only [Except.bind, bind]
  simp only [replaceOrAppend, objGet_objSet_self]
  rw [processRooms]
  simp only [List.length_set]
  rfl

/-- The grid source used for the C5 scenario: one existing Kitchen pop-up. -/
def scenarioGridSrc : String :=
  "type: grid\ncards:\n  - type: vertical-stack\n    cards:\n      - type: custom:bubble-card\n        card_type: pop-up\n        name: Kitchen\n        hash: \"#kitchen-popup\""

/-- The parsed fields of `scenarioGridSrc`. -/
def scenarioGfs : List (String × Value) :=
  [("type", .vstr "grid"),
   ("cards", .varr [.vobj [("type", .vstr "vertical-stack"),
     ("cards", .varr [.vobj [("type", .vstr "custom:bubble-card"),
       ("card_type", .vstr "pop-up"), ("name", .vstr "Kitchen"),
       ("hash", .vstr "#kitchen-popup")]])]])]

/-- A template with name/hash placeholders, used for the C5 witness. -/
def scenarioTmplSrc : String :=
  "type: vertical-stack\ncards:\n  - type: custom:bubble-card\n    card_type: pop-up\n    name: __AREA_NAME__\n    hash: __HASH__"

/-- The parsed tree of `scenarioTmplSrc`. -/
def scenarioTmpl : Value :=
  .vobj [("type", .vstr "vertical-stack"),
    ("cards", .varr [.vobj [("type", .vstr "custom:bubble-card"),
      ("card_type", .vstr "pop-up"), ("name", .vstr "__AREA_NAME__"),
      ("hash", .vstr "__HASH__")]])]

/-- A template whose first card has no name field, used for the C5
counterexample. -/
def scenarioTmplNoNameSrc : String :=
  "type: vertical-stack\ncards:\n  - type: custom:bubble-card\n    card_type: pop-up"

/-- The options bundle of the C5 scenario. -/
def scenarioOpts : Options :=
  { indent := 2, detectBy := "name", insertMode := "replace", iconMap := none }

unseal parseScalar parseInlineArray parseArrayParts parseInlineObject
  parseObjectParts replaceAll popFrames unwindStack in
/-- C5 counterexample: the grid has exactly one slot matching the first
identifier (Kitchen, by name, index 0, no duplicates) and the second
identifier (a single space) matches no slot of the document, yet the report's
second entry is another "updated" at index 0 rather than a "created" at the
original slot count: the slot spliced in for Kitchen has no name field, and a
missing name normalises to the empty string, which equals the normalised
second identifier. -/
theorem processGrid_second_identifier_counterexample :
    parseYAML scenarioGridSrc = .ok (.vobj scenarioGfs) ∧
    findExistingStack (.vobj scenarioGfs) "Kitchen" (slugifyArea "Kitchen") "name" =
      .ok { index := some 0, duplicates := [] } ∧
    findExistingStack (.vobj scenarioGfs) " " (slugifyArea " ") "name" =
      .ok { index := none, duplicates := [] } ∧
    (processGrid scenarioGridSrc (.varr [.vstr "Kitchen", .vstr " "])
        scenarioTmplNoNameSrc scenarioOpts).map
        (fun r => r.2.map (fun e => (e.action, e.index))) =
      .ok [("updated", 0), ("updated", 0)] := by
  refine ⟨by rfl, by rfl, by rfl, by rfl⟩

/-- The one existing slot of the scenario grid. -/
def scenarioSlot : Value :=
  .vobj [("type", .vstr "vertical-stack"),
    ("cards", .varr [.vobj [("type", .vstr "custom:bubble-card"),
      ("card_type", .vstr "pop-up"), ("name", .vstr "Kitchen"),
      ("hash", .vstr "#kitchen-popup")]])]

unseal parseScalar parseInlineArray parseArrayParts parseInlineObject
  parseObjectParts replaceAll popFrames unwindStack in
theorem processGrid_update_then_create_witness :
    processGrid scenarioGridSrc (.varr [.vstr "Kitchen", .vstr "Office"])
        scenarioTmplSrc scenarioOpts =
      .ok (stringifyYAML (.vobj (objSet (objSet scenarioGfs "cards"
            (.varr ([scenarioSlot].set 0
              (deepApplyTemplate scenarioTmpl "Kitchen" (slugifyArea "Kitchen")
                scenarioOpts.iconMap).stack)))
            "cards" (.varr ([scenarioSlot].set 0
              (deepApplyTemplate scenarioTmpl "Kitchen" (slugifyArea "Kitchen")
                scenarioOpts.iconMap).stack ++
              [(deepApplyTemplate scenarioTmpl "Office" (slugifyArea "Office")
                scenarioOpts.iconMap).stack]))))
          scenarioOpts.indent 0,
        [{ room := "Kitchen", areaId := slugifyArea "Kitchen", action := "updated",
           index := 0, duplicates := [], placeholdersUsed :=
             (deepApplyTemplate scenarioTmpl "Kitchen" (slugifyArea "Kitchen")
               scenarioOpts.iconMap).replacedPlaceholders },
         { room := "Office", areaId := slugifyArea "Office", action := "created",
           index := 1, duplicates := [], placeholdersUsed :=
             (deepApplyTemplate scenarioTmpl "Office" (slugifyArea "Office")
               scenarioOpts.iconMap).replacedPlaceholders }]) :=
  processGrid_update_then_create scenarioGridSrc scenarioTmplSrc "Kitchen" "Office"
    scenarioOpts scenarioGfs scenarioTmpl [scenarioSlot] 0
    (deepApplyTemplate scenarioTmpl "Kitchen" (slugifyArea "Kitchen")
      scenarioOpts.iconMap).stack
    (by rfl) (by rfl) (by rfl) (by rfl) (by rfl) (by rfl) (by rfl)
    (by rfl) rfl (by rfl)


theorem frameBelow_refl (b : Nat) (s : Store) : FrameBelow b s s :=
  fun _ _ => rfl

theorem frameBelow_trans {b : Nat} {s1 s2 s3 : Store}
    (h1 : FrameBelow b s1 s2) (h2 : FrameBelow b s2 s3) : FrameBelow b s1 s3 :=
  fun a ha => (h2 a ha).trans (h1 a ha)

theorem frameBelow_mono {b b' : Nat} {s1 s2 : Store} (hb : b ≤ b')
    (h : FrameBelow b' s1 s2) : FrameBelow b s1 s2 :=
  fun a ha => h a (Nat.lt_of_lt_of_le ha hb)

theorem hvalGEb_anti {b b' : Nat} {h : HVal} (hb : b ≤ b')
    (hh : hvalGEb b' h = true) : hvalGEb b h = true := by
  cases h <;> simp_all [hvalGEb] <;> omega

theorem hvalLTb_mono {b b' : Nat} {h : HVal} (hb : b ≤ b')
    (hh : hvalLTb b h = true) : hvalLTb b' h = true := by
  cases h <;> simp_all [hvalLTb] <;> omega

theorem nodeGEb_anti {b b' : Nat} {n : HNode} (hb : b ≤ b')
    (hh : nodeGEb b' n = true) : nodeGEb b n = true := by
  cases n with
  | harr xs =>
    simp only [nodeGEb, List.all_eq_true] at hh ⊢
    exact fun x hx => hvalGEb_anti hb (hh x hx)
  | hobj fs =>
    simp only [nodeGEb, List.all_eq_true] at hh ⊢
    exact fun kv hkv => hvalGEb_anti hb (hh kv hkv)

theorem nodeLTb_mono {b b' : Nat} {n : HNode} (hb : b ≤ b')
    (hh : nodeLTb b n = true) : nodeLTb b' n = true := by
  cases n with
  | harr xs =>
    simp only [nodeLTb, List.all_eq_true] at hh ⊢
    exact fun x hx => hvalLTb_mono hb (hh x hx)
  | hobj fs =>
    simp only [nodeLTb, List.all_eq_true] at hh ⊢
    exact fun kv hkv => hvalLTb_mono hb (hh kv hkv)

theorem storeGet_mem {s : Store} {a : Nat} {n : HNode}
    (h : storeGet s a = some n) : (a, n) ∈ s.mem := by
  unfold storeGet at h
  cases hf : s.mem.find? (fun kv => kv.1 = a) with
  | none => rw [hf] at h; cases h
  | some kv =>
    rw [hf] at h
    injection h with h2
    have hm := List.mem_of_find?_eq_some hf
    have hp := List.find?_some hf
    simp only [decide_eq_true_eq] at hp
    have : kv = (a, n) := by
      cases kv; simp_all
    rwa [this] at hm

theorem find_hmemSet_ne (mem : List (Nat × HNode)) (a : Nat) (n : HNode)
    (a' : Nat) (h : a' ≠ a) :
    (hmemSet mem a n).find? (fun kv => kv.1 = a') =
      mem.find? (fun kv => kv.1 = a') := by
  induction mem with
  | nil =>
    simp [hmemSet, List.find?, Ne.symm h]
  | cons kv rest ih =>
    obtain ⟨b, m⟩ := kv
    by_cases hb : b = a
    · subst hb
      simp only [hmemSet, if_pos rfl]
      simp [List.find?, Ne.symm h]
    · simp only [hmemSet, if_neg hb]
      by_cases hb' : b = a'
      · simp [List.find?, hb']
      · simp only [List.find?]
        rw [show (decide (b = a') = false) from by simp [hb']]
        simpa using ih

theorem storeGet_storeSet_ne {s : Store} {a : Nat} {n : HNode} {a' : Nat}
    (h : a' ≠ a) : storeGet (storeSet s a n) a' = storeGet s a' := by
  unfold storeGet storeSet
  simp only
  rw [find_hmemSet_ne s.mem a n a' h]

theorem storeSet_next (s : Store) (a : Nat) (n : HNode) :
    (storeSet s a n).next = s.next := rfl

theorem hmemSet_mem_cases {mem : List (Nat × HNode)} {a : Nat} {n : HNode} :
    ∀ e ∈ hmemSet mem a n, e ∈ mem ∨ e = (a, n) := by
  induction mem with
  | nil => intro e he; simp [hmemSet] at he; right; exact he
  | cons kv rest ih =>
    obtain ⟨b, m⟩ := kv
    intro e he
    by_cases hb : b = a
    · subst hb
      simp only [hmemSet, if_pos rfl] at he
      cases he with
      | head => right; rfl
      | tail _ h2 => left; exact List.mem_cons_of_mem _ h2
    · simp only [hmemSet, if_neg hb] at he
      cases he with
      | head => left; exact List.mem_cons_self _ _
      | tail _ h2 =>
        rcases ih e h2 with h1 | h1
        · left; exact List.mem_cons_of_mem _ h1
        · right; exact h1

theorem storeOk_get {s : Store} {a : Nat} {n : HNode}
    (hok : storeOk s = true) (h : storeGet s a = some n) :
    a < s.next ∧ nodeLTb s.next n = true := by
  have hm := storeGet_mem h
  simp only [storeOk, List.all_eq_true] at hok
  have := hok (a, n) hm
  simpa using this

theorem storeHighGE_get {b : Nat} {s : Store} {a : Nat} {n : HNode}
    (hh : storeHighGE b s = true) (h : storeGet s a = some n)
    (ha : b ≤ a) : nodeGEb b n = true := by
  have hm := storeGet_mem h
  simp only [storeHighGE, List.all_eq_true] at hh
  have := hh (a, n) hm
  simp only [Bool.or_eq_true, decide_eq_true_eq] at this
  rcases this with h1 | h1
  · omega
  · exact h1

theorem storeLowLT_get {b : Nat} {s : Store} {a : Nat} {n : HNode}
    (hh : storeLowLT b s = true) (h : storeGet s a = some n)
    (ha : a < b) : nodeLTb b n = true := by
  have hm := storeGet_mem h
  simp only [storeLowLT, List.all_eq_true] at hh
  have := hh (a, n) hm
  simp only [Bool.or_eq_true, decide_eq_true_eq] at this
  rcases this with h1 | h1
  · omega
  · exact h1

theorem storeOk_set {s : Store} {a : Nat} {n : HNode} (hok : storeOk s = true)
    (ha : a < s.next) (hn : nodeLTb s.next n = true) :
    storeOk (storeSet s a n) = true := by
  simp only [storeOk, List.all_eq_true] at hok ⊢
  intro e he
  rcases hmemSet_mem_cases e he with h1 | h1
  · exact hok e h1
  · subst h1; simp [ha, hn, storeSet_next]

theorem storeHighGE_set {b : Nat} {s : Store} {a : Nat} {n : HNode}
    (hh : storeHighGE b s = true) (h : a < b ∨ nodeGEb b n = true) :
    storeHighGE b (storeSet s a n) = true := by
  simp only [storeHighGE, List.all_eq_true] at hh ⊢
  intro e he
  rcases hmemSet_mem_cases e he with h1 | h1
  · exact hh e h1
  · subst h1
    rcases h with h | h <;> simp [h]

theorem storeOk_storeLowLT {s : Store} (hok : storeOk s = true) :
    storeLowLT s.next s = true := by
  simp only [storeOk, List.all_eq_true] at hok
  simp only [storeLowLT, List.all_eq_true]
  intro e he
  have := hok e he
  simp only [Bool.and_eq_true] at this
  simp [this.2]

theorem objSetH_mem_cases {fs : List (String × HVal)} {k : String} {v : HVal} :
    ∀ e ∈ objSetH fs k v, e ∈ fs ∨ e.2 = v := by
  induction fs with
  | nil => intro e he; simp [objSetH] at he; right; rw [he]
  | cons kv rest ih =>
    obtain ⟨k0, v0⟩ := kv
    intro e he
    by_cases hk : k0 = k
    · simp only [objSetH, if_pos hk] at he
      cases he with
      | head => right; rfl
      | tail _ h2 => left; exact List.mem_cons_of_mem _ h2
    · simp only [objSetH, if_neg hk] at he
      cases he with
      | head => left; exact List.mem_cons_self _ _
      | tail _ h2 =>
        rcases ih e h2 with h1 | h1
        · left; exact List.mem_cons_of_mem _ h1
        · right; exact h1

theorem objSetH_all {p : HVal → Bool} {fs : List (String × HVal)}
    {k : String} {v : HVal} (hfs : fs.all (fun kv => p kv.2) = true)
    (hv : p v = true) : (objSetH fs k v).all (fun kv => p kv.2) = true := by
  simp only [List.all_eq_true] at hfs ⊢
  intro e he
  rcases objSetH_mem_cases e he with h1 | h1
  · exact hfs e h1
  · rw [h1]; exact hv

theorem storeGet_append_high {mem δ : List (Nat × HNode)} {nx nx' : Nat}
    {b a : Nat} (hd : ∀ e ∈ δ, b ≤ e.1) (ha : a < b) :
    storeGet ⟨mem ++ δ, nx'⟩ a = storeGet ⟨mem, nx⟩ a := by
  unfold storeGet
  simp only
  rw [List.find?_append]
  cases hf : mem.find? (fun kv => kv.1 = a) with
  | some kv => simp
  | none =>
    cases hg : δ.find? (fun kv => kv.1 = a) with
    | none => simp [hg]
    | some kv =>
      have hp := List.find?_some hg
      have hm := List.mem_of_find?_eq_some hg
      simp only [decide_eq_true_eq] at hp
      have := hd kv hm
      omega

mutual

theorem allocValue_spec : ∀ (v : Value) (s : Store),
    AllocSpecStore s (allocValue v s).2 ∧
    hvalGEb s.next (allocValue v s).1 = true ∧
    hvalLTb (allocValue v s).2.next (allocValue v s).1 = true
  | .vnull, s => ⟨⟨Nat.le_refl _, fun e he => Or.inl he, frameBelow_refl _ _⟩, rfl, rfl⟩
  | .vbool b, s => ⟨⟨Nat.le_refl _, fun e he => Or.inl he, frameBelow_refl _ _⟩, rfl, rfl⟩
  | .vnum q, s => ⟨⟨Nat.le_refl _, fun e he => Or.inl he, frameBelow_refl _ _⟩, rfl, rfl⟩
  | .vstr t, s => ⟨⟨Nat.le_refl _, fun e he => Or.inl he, frameBelow_refl _ _⟩, rfl, rfl⟩
  | .varr xs, s => by
    obtain ⟨⟨h1, h2, h3⟩, h4, h5⟩ := allocItems_spec xs s
    have hred : allocValue (.varr xs) s =
      (.href (allocItems xs s).2.next,
        ⟨(allocItems xs s).2.mem ++
          [((allocItems xs s).2.next, .harr (allocItems xs s).1)],
          (allocItems xs s).2.next + 1⟩) := rfl
    rw [hred]
    refine ⟨⟨?_, ?_, ?_⟩, ?_, ?_⟩
    · show s.next ≤ (allocItems xs s).2.next + 1
      omega
    · intro e he
      rcases List.mem_append.mp he with h6 | h6
      · rcases h2 e h6 with h7 | h7
        · exact Or.inl h7
        · refine Or.inr ⟨h7.1, ?_, h7.2.2.1, nodeLTb_mono (Nat.le_succ _) h7.2.2.2⟩
          show e.1 < (allocItems xs s).2.next + 1
          omega
      · rcases List.mem_singleton.mp h6 with rfl
        refine Or.inr ⟨h1, Nat.lt_succ_self _, ?_, ?_⟩
        · simpa [nodeGEb] using h4
        · simp only [nodeLTb, List.all_eq_true] at h5 ⊢
          exact fun x hx => hvalLTb_mono (Nat.le_succ _) (h5 x hx)
    · refine frameBelow_trans h3 (fun a ha => ?_)
      exact storeGet_append_high
        (by intro e he; rcases List.mem_singleton.mp he with rfl; exact h1) ha
    · simp [hvalGEb, h1]
    · simp [hvalLTb]
  | .vobj fs, s => by
    obtain ⟨⟨h1, h2, h3⟩, h4, h5⟩ := allocFields_spec fs s
    have hred : allocValue (.vobj fs) s =
      (.href (allocFields fs s).2.next,
        ⟨(allocFields fs s).2.mem ++
          [((allocFields fs s).2.next, .hobj (allocFields fs s).1)],
          (allocFields fs s).2.next + 1⟩) := rfl
    rw [hred]
    refine ⟨⟨?_, ?_, ?_⟩, ?_, ?_⟩
    · show s.next ≤ (allocFields fs s).2.next + 1
      omega
    · intro e he
      rcases List.mem_append.mp he with h6 | h6
      · rcases h2 e h6 with h7 | h7
        · exact Or.inl h7
        · refine Or.inr ⟨h7.1, ?_, h7.2.2.1, nodeLTb_mono (Nat.le_succ _) h7.2.2.2⟩
          show e.1 < (allocFields fs s).2.next + 1
          omega
      · rcases List.mem_singleton.mp h6 with rfl
        refine Or.inr ⟨h1, Nat.lt_succ_self _, ?_, ?_⟩
        · simpa [nodeGEb] using h4
        · simp only [nodeLTb, List.all_eq_true] at h5 ⊢
          exact fun x hx => hvalLTb_mono (Nat.le_succ _) (h5 x hx)
    · refine frameBelow_trans h3 (fun a ha => ?_)
      exact storeGet_append_high
        (by intro e he; rcases List.mem_singleton.mp he with rfl; exact h1) ha
    · simp [hvalGEb, h1]
    · simp [hvalLTb]

theorem allocItems_spec : ∀ (xs : List Value) (s : Store),
    AllocSpecStore s (allocItems xs s).2 ∧
    (allocItems xs s).1.all (hvalGEb s.next) = true ∧
    (allocItems xs s).1.all (hvalLTb (allocItems xs s).2.next) = true
  | [], s => ⟨⟨Nat.le_refl _, fun e he => Or.inl he, frameBelow_refl _ _⟩, rfl, rfl⟩
  | v :: vs, s => by
    obtain ⟨⟨h1, h2, h3⟩, h4, h5⟩ := allocValue_spec v s
    obtain ⟨⟨g1, g2, g3⟩, g4, g5⟩ := allocItems_spec vs (allocValue v s).2
    have hred : allocItems (v :: vs) s =
      ((allocValue v s).1 :: (allocItems vs (allocValue v s).2).1,
        (allocItems vs (allocValue v s).2).2) := rfl
    rw [hred]
    dsimp only
    refine ⟨⟨?_, ?_, ?_⟩, ?_, ?_⟩
    · show s.next ≤ (allocItems vs (allocValue v s).2).2.next
      omega
    · intro e he
      rcases g2 e he with h6 | h6
      · rcases h2 e h6 with h7 | h7
        · exact Or.inl h7
        · exact Or.inr ⟨h7.1, by omega, h7.2.2.1, nodeLTb_mono g1 h7.2.2.2⟩
      · exact Or.inr ⟨by omega, h6.2.1, nodeGEb_anti h1 h6.2.2.1, h6.2.2.2⟩
    · exact frameBelow_trans h3 (frameBelow_mono h1 g3)
    · simp only [List.all_cons, Bool.and_eq_true]
      refine ⟨h4, ?_⟩
      simp only [List.all_eq_true] at g4 ⊢
      exact fun x hx => hvalGEb_anti h1 (g4 x hx)
    · simp only [List.all_cons, Bool.and_eq_true]
      exact ⟨hvalLTb_mono g1 h5, g5⟩

theorem allocFields_spec : ∀ (fs : List (String × Value)) (s : Store),
    AllocSpecStore s (allocFields fs s).2 ∧
    (allocFields fs s).1.all (fun kv => hvalGEb s.next kv.2) = true ∧
    (allocFields fs s).1.all (fun kv => hvalLTb (allocFields fs s).2.next kv.2) = true
  | [], s => ⟨⟨Nat.le_refl _, fun e he => Or.inl he, frameBelow_refl _ _⟩, rfl, rfl⟩
  | (k, v) :: fs, s => by
    obtain ⟨⟨h1, h2, h3⟩, h4, h5⟩ := allocValue_spec v s
    obtain ⟨⟨g1, g2, g3⟩, g4, g5⟩ := allocFields_spec fs (allocValue v s).2
    have hred : allocFields ((k, v) :: fs) s =
      ((k, (allocValue v s).1) :: (allocFields fs (allocValue v s).2).1,
        (allocFields fs (allocValue v s).2).2) := rfl
    rw [hred]
    dsimp only
    refine ⟨⟨?_, ?_, ?_⟩, ?_, ?_⟩
    · show s.next ≤ (allocFields fs (allocValue v s).2).2.next
      omega
    · intro e he
      rcases g2 e he with h6 | h6
      · rcases h2 e h6 with h7 | h7
        · exact Or.inl h7
        · exact Or.inr ⟨h7.1, by omega, h7.2.2.1, nodeLTb_mono g1 h7.2.2.2⟩
      · exact Or.inr ⟨by omega, h6.2.1, nodeGEb_anti h1 h6.2.2.1, h6.2.2.2⟩
    · exact frameBelow_trans h3 (frameBelow_mono h1 g3)
    · simp only [List.all_cons, Bool.and_eq_true]
      refine ⟨h4, ?_⟩
      simp only [List.all_eq_true] at g4 ⊢
      exact fun x hx => hvalGEb_anti h1 (g4 x hx)
    · simp only [List.all_cons, Bool.and_eq_true]
      exact ⟨hvalLTb_mono g1 h5, g5⟩

end

theorem replChildH_cases (repl : List (String × String)) (icon : Option HVal)
    (h : HVal) :
    (replChildH repl icon h).1 = h ∨
      (∃ r, (replChildH repl icon h).1 = .hstr r) ∨
      (∃ iv, icon = some iv ∧ (replChildH repl icon h).1 = iv) := by
  cases h with
  | hstr s =>
    simp only [replChildH]
    cases hrl : replLookup repl s with
    | some r =>
      dsimp only
      by_cases hr : r ≠ ""
      · rw [if_pos hr]; right; left; exact ⟨r, rfl⟩
      · rw [if_neg hr]; left; rfl
    | none =>
      dsimp only
      by_cases hs : s = "__ICON__"
      · rw [if_pos hs]
        cases icon with
        | some iv =>
          dsimp only
          by_cases ht : jsTruthyH iv = true
          · rw [if_pos ht]; right; right; exact ⟨iv, rfl, rfl⟩
          · rw [if_neg ht]; left; rfl
        | none => left; rfl
      · rw [if_neg hs]; left; rfl
  | hnull => left; rfl
  | hbool b2 => left; rfl
  | hnum q => left; rfl
  | href a => left; rfl

theorem iconNonRef_GE {b : Nat} {icon : Option HVal} {iv : HVal}
    (hic : iconNonRef icon = true) (h : icon = some iv) :
    hvalGEb b iv = true := by
  subst h
  cases iv <;> simp_all [iconNonRef, hvalGEb]

theorem iconNonRef_LT {b : Nat} {icon : Option HVal} {iv : HVal}
    (hic : iconNonRef icon = true) (h : icon = some iv) :
    hvalLTb b iv = true := by
  subst h
  cases iv <;> simp_all [iconNonRef, hvalLTb]

theorem replChildH_GE {repl : List (String × String)} {icon : Option HVal}
    {b : Nat} {h : HVal} (hic : iconNonRef icon = true)
    (hh : hvalGEb b h = true) : hvalGEb b (replChildH repl icon h).1 = true := by
  rcases replChildH_cases repl icon h with h1 | ⟨r, h1⟩ | ⟨iv, h2, h1⟩
  · rw [h1]; exact hh
  · rw [h1]; rfl
  · rw [h1]; exact iconNonRef_GE hic h2

theorem replChildH_LT {repl : List (String × String)} {icon : Option HVal}
    {b : Nat} {h : HVal} (hic : iconNonRef icon = true)
    (hh : hvalLTb b h = true) : hvalLTb b (replChildH repl icon h).1 = true := by
  rcases replChildH_cases repl icon h with h1 | ⟨r, h1⟩ | ⟨iv, h2, h1⟩
  · rw [h1]; exact hh
  · rw [h1]; rfl
  · rw [h1]; exact iconNonRef_LT hic h2

theorem replRewriteItems_GE {repl : List (String × String)} {icon : Option HVal}
    {b : Nat} (hic : iconNonRef icon = true) :
    ∀ {xs : List HVal}, xs.all (hvalGEb b) = true →
      (replRewriteItems repl icon xs).1.all (hvalGEb b) = true
  | [], _ => rfl
  | x :: xs, hx => by
    simp only [List.all_cons, Bool.and_eq_true] at hx
    show ((replChildH repl icon x).1 ::
      (replRewriteItems repl icon xs).1).all (hvalGEb b) = true
    simp only [List.all_cons, Bool.and_eq_true]
    exact ⟨replChildH_GE hic hx.1, replRewriteItems_GE hic hx.2⟩

theorem replRewriteItems_LT {repl : List (String × String)} {icon : Option HVal}
    {b : Nat} (hic : iconNonRef icon = true) :
    ∀ {xs : List HVal}, xs.all (hvalLTb b) = true →
      (replRewriteItems repl icon xs).1.all (hvalLTb b) = true
  | [], _ => rfl
  | x :: xs, hx => by
    simp only [List.all_cons, Bool.and_eq_true] at hx
    show ((replChildH repl icon x).1 ::
      (replRewriteItems repl icon xs).1).all (hvalLTb b) = true
    simp only [List.all_cons, Bool.and_eq_true]
    exact ⟨replChildH_LT hic hx.1, replRewriteItems_LT hic hx.2⟩

theorem replRewriteFields_GE {repl : List (String × String)} {icon : Option HVal}
    {b : Nat} (hic : iconNonRef icon = true) :
    ∀ {fs : List (String × HVal)}, fs.all (fun kv => hvalGEb b kv.2) = true →
      (replRewriteFields repl icon fs).1.all (fun kv => hvalGEb b kv.2) = true
  | [], _ => rfl
  | (k, x) :: fs, hx => by
    simp only [List.all_cons, Bool.and_eq_true] at hx
    show ((k, (replChildH repl icon x).1) ::
      (replRewriteFields repl icon fs).1).all (fun kv => hvalGEb b kv.2) = true
    simp only [List.all_cons, Bool.and_eq_true]
    exact ⟨replChildH_GE hic hx.1, replRewriteFields_GE hic hx.2⟩

theorem replRewriteFields_LT {repl : List (String × String)} {icon : Option HVal}
    {b : Nat} (hic : iconNonRef icon = true) :
    ∀ {fs : List (String × HVal)}, fs.all (fun kv => hvalLTb b kv.2) = true →
      (replRewriteFields repl icon fs).1.all (fun kv => hvalLTb b kv.2) = true
  | [], _ => rfl
  | (k, x) :: fs, hx => by
    simp only [List.all_cons, Bool.and_eq_true] at hx
    show ((k, (replChildH repl icon x).1) ::
      (replRewriteFields repl icon fs).1).all (fun kv => hvalLTb b kv.2) = true
    simp only [List.all_cons, Bool.and_eq_true]
    exact ⟨replChildH_LT hic hx.1, replRewriteFields_LT hic hx.2⟩

mutual

theorem replaceHGo_frame (repl : List (String × String)) (icon : Option HVal)
    (b : Nat) (hic : iconNonRef icon = true) :
    ∀ (f : Nat) (h : HVal) (s : Store) (r : Store × Bool × Bool),
      replaceHGo repl icon f h s = some r →
      storeOk s = true → storeHighGE b s = true → hvalGEb b h = true →
      FrameBelow b s r.1 ∧ r.1.next = s.next ∧ storeOk r.1 = true ∧
        storeHighGE b r.1 = true
  | 0, h, s, r => by
    intro hr
    simp [replaceHGo] at hr
  | f + 1, .hnull, s, r => by
    intro hr hok hhigh _
    simp only [replaceHGo] at hr
    injection hr with hr; subst hr
    exact ⟨frameBelow_refl _ _, rfl, hok, hhigh⟩
  | f + 1, .hbool b2, s, r => by
    intro hr hok hhigh _
    simp only [replaceHGo] at hr
    injection hr with hr; subst hr
    exact ⟨frameBelow_refl _ _, rfl, hok, hhigh⟩
  | f + 1, .hnum q, s, r => by
    intro hr hok hhigh _
    simp only [replaceHGo] at hr
    injection hr with hr; subst hr
    exact ⟨frameBelow_refl _ _, rfl, hok, hhigh⟩
  | f + 1, .hstr t, s, r => by
    intro hr hok hhigh _
    simp only [replaceHGo] at hr
    injection hr with hr; subst hr
    exact ⟨frameBelow_refl _ _, rfl, hok, hhigh⟩
  | f + 1, .href a, s, r => by
    intro hr hok hhigh hge
    simp only [replaceHGo] at hr
    have ha : b ≤ a := by simpa [hvalGEb] using hge
    cases hga : storeGet s a with
    | none => rw [hga] at hr; cases hr
    | some node =>
      rw [hga] at hr
      have hoka := storeOk_get hok hga
      have hnodeGE : nodeGEb b node = true := storeHighGE_get hhigh hga ha
      cases node with
      | harr xs =>
        dsimp only at hr
        have hGE : nodeGEb b (.harr (replRewriteItems repl icon xs).1) = true := by
          show (replRewriteItems repl icon xs).1.all (hvalGEb b) = true
          exact replRewriteItems_GE hic (by simpa [nodeGEb] using hnodeGE)
        have hLT : nodeLTb s.next (.harr (replRewriteItems repl icon xs).1) = true := by
          show (replRewriteItems repl icon xs).1.all (hvalLTb s.next) = true
          exact replRewriteItems_LT hic (by simpa [nodeLTb] using hoka.2)
        have hok1 : storeOk (storeSet s a (.harr (replRewriteItems repl icon xs).1)) = true :=
          storeOk_set hok hoka.1 hLT
        have hhigh1 : storeHighGE b (storeSet s a (.harr (replRewriteItems repl icon xs).1)) = true :=
          storeHighGE_set hhigh (Or.inr hGE)
        have hfr1 : FrameBelow b s (storeSet s a (.harr (replRewriteItems repl icon xs).1)) := by
          intro a2 ha2
          exact storeGet_storeSet_ne (by omega)
        have hch : xs.all (hvalGEb b) = true := by simpa [nodeGEb] using hnodeGE
        cases hrec : replaceHItems repl icon f xs
            (storeSet s a (.harr (replRewriteItems repl icon xs).1)) with
        | none => rw [hrec] at hr; dsimp only at hr; cases hr
        | some r2 =>
          rw [hrec] at hr
          dsimp only at hr
          obtain ⟨g1, g2, g3, g4⟩ := replaceHItems_frame repl icon b hic f xs
            (storeSet s a (.harr (replRewriteItems repl icon xs).1)) r2 hrec hok1 hhigh1 hch
          injection hr with hr; subst hr
          refine ⟨frameBelow_trans hfr1 g1, ?_, g3, g4⟩
          exact g2
      | hobj fs =>
        dsimp only at hr
        have hGE : nodeGEb b (.hobj (replRewriteFields repl icon fs).1) = true := by
          show (replRewriteFields repl icon fs).1.all (fun kv => hvalGEb b kv.2) = true
          exact replRewriteFields_GE hic (by simpa [nodeGEb] using hnodeGE)
        have hLT : nodeLTb s.next (.hobj (replRewriteFields repl icon fs).1) = true := by
          show (replRewriteFields repl icon fs).1.all (fun kv => hvalLTb s.next kv.2) = true
          exact replRewriteFields_LT hic (by simpa [nodeLTb] using hoka.2)
        have hok1 : storeOk (storeSet s a (.hobj (replRewriteFields repl icon fs).1)) = true :=
          storeOk_set hok hoka.1 hLT
        have hhigh1 : storeHighGE b (storeSet s a (.hobj (replRewriteFields repl icon fs).1)) = true :=
          storeHighGE_set hhigh (Or.inr hGE)
        have hfr1 : FrameBelow b s (storeSet s a (.hobj (replRewriteFields repl icon fs).1)) := by
          intro a2 ha2
          exact storeGet_storeSet_ne (by omega)
        have hch : fs.all (fun kv => hvalGEb b kv.2) = true := by
          simpa [nodeGEb] using hnodeGE
        cases hrec : replaceHFields repl icon f fs
            (storeSet s a (.hobj (replRewriteFields repl icon fs).1)) with
        | none => rw [hrec] at hr; dsimp only at hr; cases hr
        | some r2 =>
          rw [hrec] at hr
          dsimp only at hr
          obtain ⟨g1, g2, g3, g4⟩ := replaceHFields_frame repl icon b hic f fs
            (storeSet s a (.hobj (replRewriteFields repl icon fs).1)) r2 hrec hok1 hhigh1 hch
          injection hr with hr; subst hr
          refine ⟨frameBelow_trans hfr1 g1, ?_, g3, g4⟩
          exact g2
termination_by f h s r => (f, 0)

theorem replaceHItems_frame (repl : List (String × String)) (icon : Option HVal)
    (b : Nat) (hic : iconNonRef icon = true) :
    ∀ (f : Nat) (xs : List HVal) (s : Store) (r : Store × Bool × Bool),
      replaceHItems repl icon f xs s = some r →
      storeOk s = true → storeHighGE b s = true → xs.all (hvalGEb b) = true →
      FrameBelow b s r.1 ∧ r.1.next = s.next ∧ storeOk r.1 = true ∧
        storeHighGE b r.1 = true
  | f, [], s, r => by
    intro hr hok hhigh _
    simp only [replaceHItems] at hr
    injection hr with hr; subst hr
    exact ⟨frameBelow_refl _ _, rfl, hok, hhigh⟩
  | f, x :: xs, s, r => by
    intro hr hok hhigh hall
    simp only [replaceHItems] at hr
    simp only [List.all_cons, Bool.and_eq_true] at hall
    cases h1 : replaceHGo repl icon f x s with
    | none => rw [h1] at hr; cases hr
    | some r1 =>
      rw [h1] at hr
      dsimp only at hr
      obtain ⟨g1, g2, g3, g4⟩ :=
        replaceHGo_frame repl icon b hic f x s r1 h1 hok hhigh hall.1
      cases h2 : replaceHItems repl icon f xs r1.1 with
      | none => rw [h2] at hr; dsimp only at hr; cases hr
      | some r2 =>
        rw [h2] at hr
        dsimp only at hr
        obtain ⟨k1, k2, k3, k4⟩ :=
          replaceHItems_frame repl icon b hic f xs r1.1 r2 h2 g3 g4 hall.2
        injection hr with hr; subst hr
        refine ⟨frameBelow_trans g1 k1, ?_, k3, k4⟩
        dsimp only
        rw [k2, g2]
termination_by f xs s r => (f, xs.length + 1)

theorem replaceHFields_frame (repl : List (String × String)) (icon : Option HVal)
    (b : Nat) (hic : iconNonRef icon = true) :
    ∀ (f : Nat) (fs : List (String × HVal)) (s : Store) (r : Store × Bool × Bool),
      replaceHFields repl icon f fs s = some r →
      storeOk s = true → storeHighGE b s = true →
      fs.all (fun kv => hvalGEb b kv.2) = true →
      FrameBelow b s r.1 ∧ r.1.next = s.next ∧ storeOk r.1 = true ∧
        storeHighGE b r.1 = true
  | f, [], s, r => by
    intro hr hok hhigh _
    simp only [replaceHFields] at hr
    injection hr with hr; subst hr
    exact ⟨frameBelow_refl _ _, rfl, hok, hhigh⟩
  | f, (k, x) :: fs, s, r => by
    intro hr hok hhigh hall
    simp only [replaceHFields] at hr
    simp only [List.all_cons, Bool.and_eq_true] at hall
    cases h1 : replaceHGo repl icon f x s with
    | none => rw [h1] at hr; cases hr
    | some r1 =>
      rw [h1] at hr
      dsimp only at hr
      obtain ⟨g1, g2, g3, g4⟩ :=
        replaceHGo_frame repl icon b hic f x s r1 h1 hok hhigh hall.1
      cases h2 : replaceHFields repl icon f fs r1.1 with
      | none => rw [h2] at hr; dsimp only at hr; cases hr
      | some r2 =>
        rw [h2] at hr
        dsimp only at hr
        obtain ⟨k1, k2, k3, k4⟩ :=
          replaceHFields_frame repl icon b hic f fs r1.1 r2 h2 g3 g4 hall.2
        injection hr with hr; subst hr
        refine ⟨frameBelow_trans g1 k1, ?_, k3, k4⟩
        dsimp only
        rw [k2, g2]
termination_by f fs s r => (f, fs.length + 1)

end

theorem storeWriteStep {b : Nat} {s : Store} {a : Nat}
    {cur : List (String × HVal)} (hok : storeOk s = true)
    (hhigh : storeHighGE b s = true) (hget : storeGet s a = some (.hobj cur))
    (ha : b ≤ a) (k' : String) (w : String) :
    FrameBelow b s (storeSet s a (.hobj (objSetH cur k' (.hstr w)))) ∧
    (storeSet s a (.hobj (objSetH cur k' (.hstr w)))).next = s.next ∧
    storeOk (storeSet s a (.hobj (objSetH cur k' (.hstr w)))) = true ∧
    storeHighGE b (storeSet s a (.hobj (objSetH cur k' (.hstr w)))) = true := by
  have hoka := storeOk_get hok hget
  refine ⟨?_, rfl, ?_, ?_⟩
  · intro a2 ha2
    exact storeGet_storeSet_ne (by omega)
  · refine storeOk_set hok hoka.1 ?_
    show (objSetH cur k' (.hstr w)).all (fun kv => hvalLTb s.next kv.2) = true
    exact objSetH_all (by simpa [nodeLTb] using hoka.2) rfl
  · refine storeHighGE_set hhigh (Or.inr ?_)
    show (objSetH cur k' (.hstr w)).all (fun kv => hvalGEb b kv.2) = true
    exact objSetH_all (by simpa [nodeGEb] using storeHighGE_get hhigh hget ha) rfl

theorem objGetH_mem {fs : List (String × HVal)} {key : String} {v : HVal}
    (h : objGetH fs key = some v) : ∃ k, (k, v) ∈ fs := by
  unfold objGetH at h
  cases hf : fs.find? (fun kv => kv.1 = key) with
  | none => rw [hf] at h; cases h
  | some kv =>
    rw [hf] at h
    injection h with h2
    have hm := List.mem_of_find?_eq_some hf
    exact ⟨kv.1, by rw [← h2]; exact hm⟩

theorem hvalGEb_of_all {b : Nat} {fs : List (String × HVal)} {k : String}
    {v : HVal} (hall : fs.all (fun kv => hvalGEb b kv.2) = true)
    (hm : (k, v) ∈ fs) : hvalGEb b v = true := by
  simp only [List.all_eq_true] at hall
  exact hall (k, v) hm

theorem heurWrites_frame {areaId : String} {b : Nat} {a : Nat} (ha : b ≤ a) :
    ∀ (fs : List (String × HVal)) (s : Store),
      storeOk s = true → storeHighGE b s = true →
      fs.all (fun kv => hvalGEb b kv.2) = true →
      FrameBelow b s (heurWrites areaId a fs s) ∧
      (heurWrites areaId a fs s).next = s.next ∧
      storeOk (heurWrites areaId a fs s) = true ∧
      storeHighGE b (heurWrites areaId a fs s) = true
  | [], s, hok, hhigh, _ => ⟨frameBelow_refl _ _, rfl, hok, hhigh⟩
  | (k, v) :: fs, s, hok, hhigh, hall => by
    simp only [List.all_cons, Bool.and_eq_true] at hall
    by_cases hk : k = "area"
    · have hkt : k ≠ "target" := by rw [hk]; decide
      cases hga : storeGet s a with
      | none =>
        have hred : heurWrites areaId a ((k, v) :: fs) s = heurWrites areaId a fs s := by
          simp only [heurWrites, if_pos hk, if_neg hkt, hga]
        rw [hred]
        exact heurWrites_frame ha fs s hok hhigh hall.2
      | some node =>
        cases node with
        | harr xs =>
          have hred : heurWrites areaId a ((k, v) :: fs) s = heurWrites areaId a fs s := by
            simp only [heurWrites, if_pos hk, if_neg hkt, hga]
          rw [hred]
          exact heurWrites_frame ha fs s hok hhigh hall.2
        | hobj cur =>
          have hred : heurWrites areaId a ((k, v) :: fs) s =
              heurWrites areaId a fs (storeSet s a (.hobj (objSetH cur k (.hstr areaId)))) := by
            simp only [heurWrites, if_pos hk, if_neg hkt, hga]
          rw [hred]
          obtain ⟨p1, p2, p3, p4⟩ := storeWriteStep hok hhigh hga ha k areaId
          obtain ⟨q1, q2, q3, q4⟩ := heurWrites_frame ha fs _ p3 p4 hall.2
          exact ⟨frameBelow_trans p1 q1, by rw [q2, p2], q3, q4⟩
    · by_cases hkt : k = "target"
      · cases v with
        | href t =>
          have hge : b ≤ t := by
            have := hall.1
            simpa [hvalGEb] using this
          cases hgt : storeGet s t with
          | none =>
            have hred : heurWrites areaId a ((k, .href t) :: fs) s =
                heurWrites areaId a fs s := by
              simp only [heurWrites, if_neg hk, if_pos hkt, hgt]
            rw [hred]
            exact heurWrites_frame ha fs s hok hhigh hall.2
          | some node =>
            cases node with
            | harr xs =>
              have hred : heurWrites areaId a ((k, .href t) :: fs) s =
                  heurWrites areaId a fs s := by
                simp only [heurWrites, if_neg hk, if_pos hkt, hgt]
              rw [hred]
              exact heurWrites_frame ha fs s hok hhigh hall.2
            | hobj tfs =>
              have hred : heurWrites areaId a ((k, .href t) :: fs) s =
                  heurWrites areaId a fs
                    (storeSet s t (.hobj (objSetH tfs "area_id" (.hstr areaId)))) := by
                simp only [heurWrites, if_neg hk, if_pos hkt, hgt]
              rw [hred]
              obtain ⟨p1, p2, p3, p4⟩ := storeWriteStep hok hhigh hgt hge "area_id" areaId
              obtain ⟨q1, q2, q3, q4⟩ := heurWrites_frame ha fs _ p3 p4 hall.2
              exact ⟨frameBelow_trans p1 q1, by rw [q2, p2], q3, q4⟩
        | hnull =>
          have hred : heurWrites areaId a ((k, .hnull) :: fs) s =
              heurWrites areaId a fs s := by
            simp only [heurWrites, if_neg hk, if_pos hkt]
          rw [hred]
          exact heurWrites_frame ha fs s hok hhigh hall.2
        | hbool b2 =>
          have hred : heurWrites areaId a ((k, .hbool b2) :: fs) s =
              heurWrites areaId a fs s := by
            simp only [heurWrites, if_neg hk, if_pos hkt]
          rw [hred]
          exact heurWrites_frame ha fs s hok hhigh hall.2
        | hnum q =>
          have hred : heurWrites areaId a ((k, .hnum q) :: fs) s =
              heurWrites areaId a fs s := by
            simp only [heurWrites, if_neg hk, if_pos hkt]
          rw [hred]
          exact heurWrites_frame ha fs s hok hhigh hall.2
        | hstr t2 =>
          have hred : heurWrites areaId a ((k, .hstr t2) :: fs) s =
              heurWrites areaId a fs s := by
            simp only [heurWrites, if_neg hk, if_pos hkt]
          rw [hred]
          exact heurWrites_frame ha fs s hok hhigh hall.2
      · have hred : heurWrites areaId a ((k, v) :: fs) s = heurWrites areaId a fs s := by
          simp only [heurWrites, if_neg hk, if_neg hkt]
        rw [hred]
        exact heurWrites_frame ha fs s hok hhigh hall.2

mutual

theorem heurHGo_frame (areaId : String) (b : Nat) :
    ∀ (f : Nat) (h : HVal) (s : Store) (r : Store),
      heurHGo areaId f h s = some r →
      storeOk s = true → storeHighGE b s = true → hvalGEb b h = true →
      FrameBelow b s r ∧ r.next = s.next ∧ storeOk r = true ∧
        storeHighGE b r = true
  | 0, h, s, r => by
    intro hr
    simp [heurHGo] at hr
  | f + 1, .hnull, s, r => by
    intro hr hok hhigh _
    simp only [heurHGo] at hr
    injection hr with hr; subst hr
    exact ⟨frameBelow_refl _ _, rfl, hok, hhigh⟩
  | f + 1, .hbool b2, s, r => by
    intro hr hok hhigh _
    simp only [heurHGo] at hr
    injection hr with hr; subst hr
    exact ⟨frameBelow_refl _ _, rfl, hok, hhigh⟩
  | f + 1, .hnum q, s, r => by
    intro hr hok hhigh _
    simp only [heurHGo] at hr
    injection hr with hr; subst hr
    exact ⟨frameBelow_refl _ _, rfl, hok, hhigh⟩
  | f + 1, .hstr t, s, r => by
    intro hr hok hhigh _
    simp only [heurHGo] at hr
    injection hr with hr; subst hr
    exact ⟨frameBelow_refl _ _, rfl, hok, hhigh⟩
  | f + 1, .href a, s, r => by
    intro hr hok hhigh hge
    simp only [heurHGo] at hr
    have ha : b ≤ a := by simpa [hvalGEb] using hge
    cases hga : storeGet s a with
    | none => rw [hga] at hr; cases hr
    | some node =>
      rw [hga] at hr
      have hnodeGE : nodeGEb b node = true := storeHighGE_get hhigh hga ha
      cases node with
      | harr xs =>
        dsimp only at hr
        have hch : xs.all (hvalGEb b) = true := by simpa [nodeGEb] using hnodeGE
        exact heurHItems_frame areaId b f xs s r hr hok hhigh hch
      | hobj fs =>
        dsimp only at hr
        have hch : fs.all (fun kv => hvalGEb b kv.2) = true := by
          simpa [nodeGEb] using hnodeGE
        obtain ⟨p1, p2, p3, p4⟩ := @heurWrites_frame areaId b a ha fs s hok hhigh hch
        obtain ⟨q1, q2, q3, q4⟩ :=
          heurHFields_frame areaId b f fs (heurWrites areaId a fs s) r hr p3 p4 hch
        exact ⟨frameBelow_trans p1 q1, by rw [q2, p2], q3, q4⟩
termination_by f h s r => (f, 0)

theorem heurHItems_frame (areaId : String) (b : Nat) :
    ∀ (f : Nat) (xs : List HVal) (s : Store) (r : Store),
      heurHItems areaId f xs s = some r →
      storeOk s = true → storeHighGE b s = true → xs.all (hvalGEb b) = true →
      FrameBelow b s r ∧ r.next = s.next ∧ storeOk r = true ∧
        storeHighGE b r = true
  | f, [], s, r => by
    intro hr hok hhigh _
    simp only [heurHItems] at hr
    injection hr with hr; subst hr
    exact ⟨frameBelow_refl _ _, rfl, hok, hhigh⟩
  | f, x :: xs, s, r => by
    intro hr hok hhigh hall
    simp only [heurHItems] at hr
    simp only [List.all_cons, Bool.and_eq_true] at hall
    cases h1 : heurHGo areaId f x s with
    | none => rw [h1] at hr; dsimp only at hr; cases hr
    | some s1 =>
      rw [h1] at hr
      dsimp only at hr
      obtain ⟨g1, g2, g3, g4⟩ := heurHGo_frame areaId b f x s s1 h1 hok hhigh hall.1
      obtain ⟨k1, k2, k3, k4⟩ := heurHItems_frame areaId b f xs s1 r hr g3 g4 hall.2
      exact ⟨frameBelow_trans g1 k1, by rw [k2, g2], k3, k4⟩
termination_by f xs s r => (f, xs.length + 1)

theorem heurHFields_frame (areaId : String) (b : Nat) :
    ∀ (f : Nat) (fs : List (String × HVal)) (s : Store) (r : Store),
      heurHFields areaId f fs s = some r →
      storeOk s = true → storeHighGE b s = true →
      fs.all (fun kv => hvalGEb b kv.2) = true →
      FrameBelow b s r ∧ r.next = s.next ∧ storeOk r = true ∧
        storeHighGE b r = true
  | f, [], s, r => by
    intro hr hok hhigh _
    simp only [heurHFields] at hr
    injection hr with hr; subst hr
    exact ⟨frameBelow_refl _ _, rfl, hok, hhigh⟩
  | f, (k, x) :: fs, s, r => by
    intro hr hok hhigh hall
    simp only [heurHFields] at hr
    simp only [List.all_cons, Bool.and_eq_true] at hall
    cases h1 : heurHGo areaId f x s with
    | none => rw [h1] at hr; dsimp only at hr; cases hr
    | some s1 =>
      rw [h1] at hr
      dsimp only at hr
      obtain ⟨g1, g2, g3, g4⟩ := heurHGo_frame areaId b f x s s1 h1 hok hhigh hall.1
      obtain ⟨k1, k2, k3, k4⟩ := heurHFields_frame areaId b f fs s1 r hr g3 g4 hall.2
      exact ⟨frameBelow_trans g1 k1, by rw [k2, g2], k3, k4⟩
termination_by f fs s r => (f, fs.length + 1)

end

theorem condHashStep {b : Nat} {s1 : Store} {fa : Nat}
    (hok1 : storeOk s1 = true) (hhigh1 : storeHighGE b s1 = true)
    (hfa : b ≤ fa) (w : String) :
    FrameBelow b s1 (match storeGet s1 fa with
      | some (.hobj ffs1) =>
        if (objGetH ffs1 "hash").isSome then
          storeSet s1 fa (.hobj (objSetH ffs1 "hash" (.hstr w)))
        else s1
      | _ => s1) ∧
    (match storeGet s1 fa with
      | some (.hobj ffs1) =>
        if (objGetH ffs1 "hash").isSome then
          storeSet s1 fa (.hobj (objSetH ffs1 "hash" (.hstr w)))
        else s1
      | _ => s1).next = s1.next ∧
    storeOk (match storeGet s1 fa with
      | some (.hobj ffs1) =>
        if (objGetH ffs1 "hash").isSome then
          storeSet s1 fa (.hobj (objSetH ffs1 "hash" (.hstr w)))
        else s1
      | _ => s1) = true ∧
    storeHighGE b (match storeGet s1 fa with
      | some (.hobj ffs1) =>
        if (objGetH ffs1 "hash").isSome then
          storeSet s1 fa (.hobj (objSetH ffs1 "hash" (.hstr w)))
        else s1
      | _ => s1) = true := by
  cases hg1 : storeGet s1 fa with
  | none => exact ⟨frameBelow_refl _ _, rfl, hok1, hhigh1⟩
  | some node =>
    cases node with
    | harr xs => exact ⟨frameBelow_refl _ _, rfl, hok1, hhigh1⟩
    | hobj ffs1 =>
      dsimp only
      by_cases hh : (objGetH ffs1 "hash").isSome
      · rw [if_pos hh]
        exact storeWriteStep hok1 hhigh1 hg1 hfa "hash" w
      · rw [if_neg hh]
        exact ⟨frameBelow_refl _ _, rfl, hok1, hhigh1⟩

theorem fixFirstCardH_frame {room areaId : String} {b : Nat} {root : HVal}
    {s : Store} (hok : storeOk s = true) (hhigh : storeHighGE b s = true)
    (hge : hvalGEb b root = true) :
    FrameBelow b s (fixFirstCardH room areaId root s) ∧
    (fixFirstCardH room areaId root s).next = s.next ∧
    storeOk (fixFirstCardH room areaId root s) = true ∧
    storeHighGE b (fixFirstCardH room areaId root s) = true := by
  cases root with
  | hnull => exact ⟨frameBelow_refl _ _, rfl, hok, hhigh⟩
  | hbool b2 => exact ⟨frameBelow_refl _ _, rfl, hok, hhigh⟩
  | hnum q => exact ⟨frameBelow_refl _ _, rfl, hok, hhigh⟩
  | hstr t => exact ⟨frameBelow_refl _ _, rfl, hok, hhigh⟩
  | href a =>
    have ha : b ≤ a := by simpa [hvalGEb] using hge
    simp only [fixFirstCardH]
    cases hga : storeGet s a with
    | none => exact ⟨frameBelow_refl _ _, rfl, hok, hhigh⟩
    | some node =>
      cases node with
      | harr xs => exact ⟨frameBelow_refl _ _, rfl, hok, hhigh⟩
      | hobj fs =>
        dsimp only
        have hfsGE : fs.all (fun kv => hvalGEb b kv.2) = true := by
          simpa [nodeGEb] using storeHighGE_get hhigh hga ha
        cases hcards : objGetH fs "cards" with
        | none => exact ⟨frameBelow_refl _ _, rfl, hok, hhigh⟩
        | some cv =>
          cases cv with
          | hnull => exact ⟨frameBelow_refl _ _, rfl, hok, hhigh⟩
          | hbool b3 => exact ⟨frameBelow_refl _ _, rfl, hok, hhigh⟩
          | hnum q2 => exact ⟨frameBelow_refl _ _, rfl, hok, hhigh⟩
          | hstr t2 => exact ⟨frameBelow_refl _ _, rfl, hok, hhigh⟩
          | href c =>
            dsimp only
            have hc : b ≤ c := by
              obtain ⟨k, hk⟩ := objGetH_mem hcards
              simpa [hvalGEb] using hvalGEb_of_all hfsGE hk
            cases hgc : storeGet s c with
            | none => exact ⟨frameBelow_refl _ _, rfl, hok, hhigh⟩
            | some cnode =>
              cases cnode with
              | hobj gs => exact ⟨frameBelow_refl _ _, rfl, hok, hhigh⟩
              | harr xs =>
                cases xs with
                | nil => exact ⟨frameBelow_refl _ _, rfl, hok, hhigh⟩
                | cons f0 rest =>
                  dsimp only
                  have hxsGE : (f0 :: rest).all (hvalGEb b) = true := by
                    simpa [nodeGEb] using storeHighGE_get hhigh hgc hc
                  cases f0 with
                  | hnull => exact ⟨frameBelow_refl _ _, rfl, hok, hhigh⟩
                  | hbool b4 => exact ⟨frameBelow_refl _ _, rfl, hok, hhigh⟩
                  | hnum q3 => exact ⟨frameBelow_refl _ _, rfl, hok, hhigh⟩
                  | hstr t3 => exact ⟨frameBelow_refl _ _, rfl, hok, hhigh⟩
                  | href fa =>
                    dsimp only
                    have hfa : b ≤ fa := by
                      simp only [List.all_cons, Bool.and_eq_true] at hxsGE
                      simpa [hvalGEb] using hxsGE.1
                    cases hgf : storeGet s fa with
                    | none => exact ⟨frameBelow_refl _ _, rfl, hok, hhigh⟩
                    | some fnode =>
                      cases fnode with
                      | harr ys => exact ⟨frameBelow_refl _ _, rfl, hok, hhigh⟩
                      | hobj ffs =>
                        dsimp only
                        by_cases hname : (objGetH ffs "name").isSome
                        · rw [if_pos hname]
                          obtain ⟨p1, p2, p3, p4⟩ :=
                            storeWriteStep hok hhigh hgf hfa "name" room
                          obtain ⟨q1, q2, q3, q4⟩ := condHashStep p3 p4 hfa
                            ("#" ++ areaId ++ "-popup")
                          exact ⟨frameBelow_trans p1 q1, by rw [q2, p2], q3, q4⟩
                        · rw [if_neg hname]
                          obtain ⟨q1, q2, q3, q4⟩ := condHashStep hok hhigh hfa
                            ("#" ++ areaId ++ "-popup")
                          exact ⟨q1, q2, q3, q4⟩

mutual

theorem readbackF_frame {b : Nat} {s s2 : Store} (hfr : FrameBelow b s s2)
    (hlow : storeLowLT b s = true) :
    ∀ (f : Nat) (h : HVal), hvalLTb b h = true →
      readbackF f h s2 = readbackF f h s
  | 0, _, _ => by simp only [readbackF]
  | f + 1, .hnull, _ => by simp only [readbackF]
  | f + 1, .hbool b2, _ => by simp only [readbackF]
  | f + 1, .hnum q, _ => by simp only [readbackF]
  | f + 1, .hstr t, _ => by simp only [readbackF]
  | f + 1, .href a, hlt => by
    have ha : a < b := by simpa [hvalLTb] using hlt
    simp only [readbackF]
    rw [hfr a ha]
    cases hga : storeGet s a with
    | none => rfl
    | some node =>
      have hnode : nodeLTb b node = true := storeLowLT_get hlow hga ha
      cases node with
      | harr xs =>
        dsimp only
        rw [readbackItemsF_frame hfr hlow f xs (by simpa [nodeLTb] using hnode)]
      | hobj fs =>
        dsimp only
        rw [readbackFieldsF_frame hfr hlow f fs (by simpa [nodeLTb] using hnode)]
termination_by f h _ => (f, 0)

theorem readbackItemsF_frame {b : Nat} {s s2 : Store} (hfr : FrameBelow b s s2)
    (hlow : storeLowLT b s = true) :
    ∀ (f : Nat) (xs : List HVal), xs.all (hvalLTb b) = true →
      readbackItemsF f xs s2 = readbackItemsF f xs s
  | _, [], _ => by simp only [readbackItemsF]
  | f, x :: xs, hall => by
    simp only [List.all_cons, Bool.and_eq_true] at hall
    simp only [readbackItemsF]
    rw [readbackF_frame hfr hlow f x hall.1,
      readbackItemsF_frame hfr hlow f xs hall.2]
termination_by f xs _ => (f, xs.length + 1)

theorem readbackFieldsF_frame {b : Nat} {s s2 : Store} (hfr : FrameBelow b s s2)
    (hlow : storeLowLT b s = true) :
    ∀ (f : Nat) (fs : List (String × HVal)),
      fs.all (fun kv => hvalLTb b kv.2) = true →
      readbackFieldsF f fs s2 = readbackFieldsF f fs s
  | _, [], _ => by simp only [readbackFieldsF]
  | f, (k, x) :: fs, hall => by
    simp only [List.all_cons, Bool.and_eq_true] at hall
    simp only [readbackFieldsF]
    rw [readbackF_frame hfr hlow f x hall.1,
      readbackFieldsF_frame hfr hlow f fs hall.2]
termination_by f fs _ => (f, fs.length + 1)

end

theorem storeOk_of_alloc {s s1 : Store} (hok : storeOk s = true)
    (hsp : AllocSpecStore s s1) : storeOk s1 = true := by
  obtain ⟨h1, h2, _⟩ := hsp
  simp only [storeOk, List.all_eq_true] at hok ⊢
  intro e he
  rcases h2 e he with h3 | h3
  · have := hok e h3
    simp only [Bool.and_eq_true, decide_eq_true_eq] at this ⊢
    exact ⟨by omega, nodeLTb_mono h1 this.2⟩
  · simp only [Bool.and_eq_true, decide_eq_true_eq]
    exact ⟨h3.2.1, h3.2.2.2⟩

theorem storeHighGE_of_alloc {s s1 : Store} (hok : storeOk s = true)
    (hsp : AllocSpecStore s s1) : storeHighGE s.next s1 = true := by
  obtain ⟨h1, h2, _⟩ := hsp
  simp only [storeOk, List.all_eq_true] at hok
  simp only [storeHighGE, List.all_eq_true]
  intro e he
  rcases h2 e he with h3 | h3
  · have := hok e h3
    simp only [Bool.and_eq_true, decide_eq_true_eq] at this
    simp [this.1]
  · simp [h3.2.2.1]

theorem deepApplyTemplateH_frame {f : Nat} {room areaId : String}
    {icon : Option HVal} {template : HVal} {s : Store} {cv : HVal}
    {s4 : Store} {rep icn : Bool}
    (hok : storeOk s = true) (hic : iconNonRef icon = true)
    (hr : deepApplyTemplateH f room areaId icon template s =
      some (cv, s4, rep, icn)) :
    FrameBelow s.next s s4 ∧ s.next ≤ s4.next ∧ storeOk s4 = true ∧
      hvalLTb s4.next cv = true := by
  unfold deepApplyTemplateH deepCloneH at hr
  cases hrb : readbackF f template s with
  | none => rw [hrb] at hr; dsimp only at hr; cases hr
  | some v =>
    rw [hrb] at hr
    dsimp only at hr
    rcases hav : allocValue v s with ⟨cv0, s1⟩
    rw [hav] at hr
    dsimp only at hr
    obtain ⟨hsp, hge0, hlt0⟩ := allocValue_spec v s
    rw [hav] at hsp hge0 hlt0
    dsimp only at hsp hge0 hlt0
    have hok1 : storeOk s1 = true := storeOk_of_alloc hok hsp
    have hhigh1 : storeHighGE s.next s1 = true := storeHighGE_of_alloc hok hsp
    cases hrp : replaceHGo [("__AREA_NAME__", room), ("__AREA_ID__", areaId),
        ("__HASH__", "#" ++ areaId ++ "-popup")] icon f cv0 s1 with
    | none => rw [hrp] at hr; dsimp only at hr; cases hr
    | some r2 =>
      rw [hrp] at hr
      dsimp only at hr
      obtain ⟨g1, g2, g3, g4⟩ := replaceHGo_frame _ icon s.next hic f cv0 s1 r2
        hrp hok1 hhigh1 hge0
      cases hrh : heurHGo areaId f cv0 r2.1 with
      | none => rw [hrh] at hr; dsimp only at hr; cases hr
      | some s3 =>
        rw [hrh] at hr
        dsimp only at hr
        obtain ⟨k1, k2, k3, k4⟩ := heurHGo_frame areaId s.next f cv0 r2.1 s3
          hrh g3 g4 hge0
        obtain ⟨m1, m2, m3, m4⟩ :=
          @fixFirstCardH_frame room areaId s.next cv0 s3 k3 k4 hge0
        simp only [Option.some.injEq, Prod.mk.injEq] at hr
        obtain ⟨hcv, hs4, _, _⟩ := hr
        rw [← hs4, ← hcv]
        have hnext : (fixFirstCardH room areaId cv0 s3).next = s1.next := by
          rw [m2, k2, g2]
        refine ⟨?_, ?_, m3, ?_⟩
        · exact frameBelow_trans hsp.2.2 (frameBelow_trans g1 (frameBelow_trans k1 m1))
        · rw [hnext]; exact hsp.1
        · rw [hnext]; exact hlt0

/-- C9 (amended): deepApplyTemplate works on a deep clone, so as long as the
icon value bound into the stack is a scalar (or absent), two successive
applications to the same template graph leave the caller's entire region of
the heap untouched: the template's readback is unchanged after each
application, and the readback of the first produced stack is unaffected by
the second application. -/
theorem deepApplyTemplateH_no_shared_mutation
    (f1 f2 g : Nat) (room1 areaId1 room2 areaId2 : String)
    (icon1 icon2 : Option HVal) (template : HVal) (s0 s1 s2 : Store)
    (cv1 cv2 : HVal) (rep1 icn1 rep2 icn2 : Bool)
    (hok : storeOk s0 = true)
    (htl : hvalLTb s0.next template = true)
    (hic1 : iconNonRef icon1 = true) (hic2 : iconNonRef icon2 = true)
    (h1 : deepApplyTemplateH f1 room1 areaId1 icon1 template s0 =
      some (cv1, s1, rep1, icn1))
    (h2 : deepApplyTemplateH f2 room2 areaId2 icon2 template s1 =
      some (cv2, s2, rep2, icn2)) :
    (∀ a, a < s0.next → storeGet s2 a = storeGet s0 a) ∧
    readbackF g template s1 = readbackF g template s0 ∧
    readbackF g template s2 = readbackF g template s0 ∧
    readbackF g cv1 s2 = readbackF g cv1 s1 := by
  obtain ⟨F1, n01, ok1, cvLT1⟩ := deepApplyTemplateH_frame hok hic1 h1
  obtain ⟨F2, n12, ok2, cvLT2⟩ := deepApplyTemplateH_frame ok1 hic2 h2
  have F02 : FrameBelow s0.next s0 s2 :=
    frameBelow_trans F1 (frameBelow_mono n01 F2)
  refine ⟨F02, ?_, ?_, ?_⟩
  · exact readbackF_frame F1 (storeOk_storeLowLT hok) g template htl
  · exact readbackF_frame F02 (storeOk_storeLowLT hok) g template htl
  · exact readbackF_frame F2 (storeOk_storeLowLT ok1) g cv1 cvLT1

unseal readbackF readbackItemsF readbackFieldsF replaceHGo replaceHItems
  replaceHFields heurHGo heurHItems heurHFields in
/-- C9 counterexample: when the icon map binds a room to an OBJECT, the
object is spliced into the clone by reference; the heuristics pass then
mutates it in place, corrupting the caller's icon map value after a single
application, and the second application rewrites it again, changing the
readback of the first produced stack. -/
theorem deepApplyTemplateH_icon_sharing_counterexample :
    deepApplyTemplateH 10 "Alpha" "alpha" (some (.href 0)) (.href 1)
      iconObjStore = some (.href 2, iconObjStore1, false, true) ∧
    deepApplyTemplateH 10 "Beta" "beta" (some (.href 0)) (.href 1)
      iconObjStore1 = some (.href 3, iconObjStore2, false, true) ∧
    storeGet iconObjStore1 0 ≠ storeGet iconObjStore 0 ∧
    readbackF 10 (.href 2) iconObjStore2 ≠ readbackF 10 (.href 2) iconObjStore1 := by
  refine ⟨by decide, by decide, by decide, ?_⟩
  intro h
  simp only [readbackF, readbackFieldsF, storeGet] at h
  revert h
  decide

unseal readbackF readbackItemsF readbackFieldsF replaceHGo replaceHItems
  replaceHFields heurHGo heurHItems heurHFields in
theorem deepApplyTemplateH_no_shared_mutation_witness :
    (∀ a, a < plainTmplStore.next →
      storeGet plainTmplStore2 a = storeGet plainTmplStore a) ∧
    readbackF 10 (.href 0) plainTmplStore1 = readbackF 10 (.href 0) plainTmplStore ∧
    readbackF 10 (.href 0) plainTmplStore2 = readbackF 10 (.href 0) plainTmplStore ∧
    readbackF 10 (.href 1) plainTmplStore2 = readbackF 10 (.href 1) plainTmplStore1 :=
  deepApplyTemplateH_no_shared_mutation 10 10 10 "Kitchen" "kitchen"
    "Office" "office" none none (.href 0) plainTmplStore plainTmplStore1
    plainTmplStore2 (.href 1) (.href 2) true false true false
    (by decide) (by decide) (by decide) (by decide) (by decide) (by decide)

end PopupTool
